import Mathlib

/-!
Verification development for the `cdumay_context` crate.

The crate provides a `Context` trait over `BTreeMap<String, serde_value::Value>`
with JSON / TOML / YAML adapters (`src/context.rs`) and a format-tagged `Error`
enum (`src/error.rs`).  This file gives a shallow embedding of the data model,
the map operations, and the three format adapters, and proves or refutes the
frozen claims about them.

Modelling notes.
The serialization work is done by external crates (`serde_json`, `toml`,
`serde_yaml`, `serde_value`) that are not part of this repository; following
the specification (sections 3, 4.2 and 7) they are modelled here as executable
Lean functions, restricted to the flat fragment the claims are about:
string keys mapped to scalar values (string, signed/unsigned integer, boolean,
unit).  Floating point values and nested sequences/maps are outside the model.
Rust `BTreeMap<String, _>` is modelled as a list of key-value pairs kept
strictly sorted by the byte-lexicographic key order (UTF-8 byte order equals
code-point order, so comparing `Char` lists by code point is the same order).
-/

/-- Model of `serde_value::Value` restricted to the scalar variants the claims
exercise: `String`, `Bool`, `I64`, `U64`, `Unit`. -/
inductive DValue where
  | str (s : String)
  | bool (b : Bool)
  | i64 (z : Int)
  | u64 (n : Nat)
  | unit
deriving DecidableEq, Repr

/-- Byte-lexicographic order on keys, as `Ord for String` in Rust
(UTF-8 byte order, which coincides with code-point order). -/
def keyLt : List Char → List Char → Bool
  | [], [] => false
  | [], _ :: _ => true
  | _ :: _, [] => false
  | a :: as, b :: bs => if a < b then true else if a = b then keyLt as bs else false

/-- Key order lifted to `String`. -/
def strLt (a b : String) : Bool := keyLt a.data b.data

/-- The map type underlying the context: model of
`BTreeMap<String, serde_value::Value>` as a key-sorted association list. -/
abbrev BMap := List (String × DValue)

/-- Model of `BTreeMap::insert`: insert or overwrite, keeping keys sorted. -/
def insertSorted (k : String) (v : DValue) : BMap → BMap
  | [] => [(k, v)]
  | (k0, v0) :: rest =>
    if strLt k k0 then (k, v) :: (k0, v0) :: rest
    else if k = k0 then (k, v) :: rest
    else (k0, v0) :: insertSorted k v rest

/-- Model of `BTreeMap::get`: first entry with the given key. -/
def lookupKey (k : String) : BMap → Option DValue
  | [] => none
  | (k0, v0) :: rest => if k = k0 then some v0 else lookupKey k rest

/-- Model of `BTreeMap::extend`: insert every incoming pair in order, so an
incoming value wins over an existing one under the same key. -/
def extendMap (m : BMap) (data : BMap) : BMap :=
  data.foldl (fun acc kv => insertSorted kv.1 kv.2 acc) m

/-- The key-sorted invariant of `BTreeMap`: keys strictly ascending. -/
def SortedKeys (m : BMap) : Prop :=
  List.Pairwise (fun a b => strLt a.1 b.1 = true) m

instance : DecidablePred SortedKeys := fun m =>
  inferInstanceAs (Decidable (List.Pairwise _ m))

/-- Model of the `TestContext` struct implementing the `Context` trait
(`src/context.rs`, test impl; identical to the doc example impl):
a wrapper around the `BTreeMap`. -/
structure TestContext where
  data : BMap
deriving DecidableEq, Repr

/-- `Context::new`: the empty context. -/
def TestContext.new : TestContext := ⟨[]⟩

/-- `Context::insert`: insert or overwrite one key. -/
def TestContext.insert (c : TestContext) (k : String) (v : DValue) : TestContext :=
  ⟨insertSorted k v c.data⟩

/-- `Context::get`: look up one key, non-mutating. -/
def TestContext.get (c : TestContext) (k : String) : Option DValue :=
  lookupKey k c.data

/-- `Context::extend`: merge a map in, incoming values win. -/
def TestContext.extend (c : TestContext) (data : BMap) : TestContext :=
  ⟨extendMap c.data data⟩

/-- `Context::inner`: a clone of the full map. -/
def TestContext.inner (c : TestContext) : BMap := c.data

/-- Model of the `Error` enum of `src/error.rs`. -/
inductive Error where
  | Generic (msg : String)
  | Json (msg : String)
  | Toml (msg : String)
  | Yaml (msg : String)
  | Http (msg : String)
deriving DecidableEq, Repr

instance {e a : Type} [DecidableEq e] [DecidableEq a] :
    DecidableEq (Except e a) := fun x y =>
  match x, y with
  | .ok v1, .ok v2 =>
    if h : v1 = v2 then isTrue (by rw [h])
    else isFalse (fun hc => h (Except.ok.inj hc))
  | .error m1, .error m2 =>
    if h : m1 = m2 then isTrue (by rw [h])
    else isFalse (fun hc => h (Except.error.inj hc))
  | .ok _, .error _ => isFalse (fun hc => Except.noConfusion hc)
  | .error _, .ok _ => isFalse (fun hc => Except.noConfusion hc)

/-! ### Order lemmas for the key order -/

theorem keyLt_irrefl (l : List Char) : keyLt l l = false := by
  induction l with
  | nil => rfl
  | cons c cs ih => simp [keyLt, ih]

theorem keyLt_trans {a b c : List Char} (h1 : keyLt a b = true)
    (h2 : keyLt b c = true) : keyLt a c = true := by
  induction a generalizing b c with
  | nil =>
    cases b with
    | nil => simp [keyLt] at h1
    | cons y ys =>
      cases c with
      | nil => simp [keyLt] at h2
      | cons z zs => simp [keyLt]
  | cons x xs ih =>
    cases b with
    | nil => simp [keyLt] at h1
    | cons y ys =>
      cases c with
      | nil => simp [keyLt] at h2
      | cons z zs =>
        simp only [keyLt] at h1 h2 ⊢
        by_cases hxy : x < y
        · by_cases hyz : y < z
          · have hxz : x < z := lt_trans hxy hyz
            rw [if_pos hxz]
          · rw [if_neg hyz] at h2
            by_cases heyz : y = z
            · subst heyz; rw [if_pos hxy]
            · rw [if_neg heyz] at h2; exact absurd h2 (by simp)
        · rw [if_neg hxy] at h1
          by_cases hexy : x = y
          · subst hexy
            rw [if_pos rfl] at h1
            by_cases hxz : x < z
            · rw [if_pos hxz]
            · rw [if_neg hxz] at h2 ⊢
              by_cases hezz : x = z
              · subst hezz
                rw [if_pos rfl] at h2 ⊢
                exact ih h1 h2
              · rw [if_neg hezz] at h2; exact absurd h2 (by simp)
          · rw [if_neg hexy] at h1; exact absurd h1 (by simp)

theorem keyLt_total {a b : List Char} (h1 : keyLt a b = false) (h2 : a ≠ b) :
    keyLt b a = true := by
  induction a generalizing b with
  | nil =>
    cases b with
    | nil => exact absurd rfl h2
    | cons y ys => simp [keyLt] at h1
  | cons x xs ih =>
    cases b with
    | nil => simp [keyLt]
    | cons y ys =>
      simp only [keyLt] at h1 ⊢
      by_cases hxy : x < y
      · rw [if_pos hxy] at h1; exact absurd h1 (by simp)
      · rw [if_neg hxy] at h1
        by_cases hexy : x = y
        · subst hexy
          rw [if_pos rfl] at h1
          rw [if_neg (lt_irrefl x), if_pos rfl]
          have hne : xs ≠ ys := by
            intro hc; exact h2 (by rw [hc])
          exact ih h1 hne
        · have hyx : y < x :=
            lt_of_le_of_ne (not_lt.mp hxy) (Ne.symm hexy)
          rw [if_pos hyx]

/-! ### Lookup and insert lemmas -/

theorem lookup_insertSorted_self (k : String) (v : DValue) (m : BMap) :
    lookupKey k (insertSorted k v m) = some v := by
  induction m with
  | nil => simp [insertSorted, lookupKey]
  | cons kv rest ih =>
    obtain ⟨k0, v0⟩ := kv
    simp only [insertSorted]
    by_cases hlt : strLt k k0 = true
    · rw [if_pos hlt]; simp [lookupKey]
    · rw [if_neg hlt]
      by_cases heq : k = k0
      · rw [if_pos heq]; simp [lookupKey]
      · rw [if_neg heq]
        simp only [lookupKey, if_neg heq]
        exact ih

theorem lookup_insertSorted_ne (k k0 : String) (v : DValue) (m : BMap)
    (h : k ≠ k0) : lookupKey k (insertSorted k0 v m) = lookupKey k m := by
  induction m with
  | nil => simp [insertSorted, lookupKey, h]
  | cons kv rest ih =>
    obtain ⟨k1, v1⟩ := kv
    simp only [insertSorted]
    by_cases hlt : strLt k0 k1 = true
    · rw [if_pos hlt]; simp [lookupKey, h]
    · rw [if_neg hlt]
      by_cases heq : k0 = k1
      · rw [if_pos heq]
        subst heq
        simp [lookupKey, h]
      · rw [if_neg heq]
        simp only [lookupKey]
        by_cases hk1 : k = k1
        · rw [if_pos hk1, if_pos hk1]
        · rw [if_neg hk1, if_neg hk1]
          exact ih

theorem mem_insertSorted {kv : String × DValue} {k : String} {v : DValue}
    {m : BMap} (h : kv ∈ insertSorted k v m) : kv = (k, v) ∨ kv ∈ m := by
  induction m with
  | nil =>
    simp [insertSorted] at h
    exact Or.inl h
  | cons kv0 rest ih =>
    obtain ⟨k0, v0⟩ := kv0
    simp only [insertSorted] at h
    by_cases hlt : strLt k k0 = true
    · rw [if_pos hlt] at h
      rcases List.mem_cons.mp h with h | h
      · exact Or.inl h
      · exact Or.inr h
    · rw [if_neg hlt] at h
      by_cases heq : k = k0
      · rw [if_pos heq] at h
        rcases List.mem_cons.mp h with h | h
        · exact Or.inl h
        · exact Or.inr (List.mem_cons_of_mem _ h)
      · rw [if_neg heq] at h
        rcases List.mem_cons.mp h with h | h
        · exact Or.inr (h ▸ List.mem_cons_self _ _)
        · rcases ih h with h2 | h2
          · exact Or.inl h2
          · exact Or.inr (List.mem_cons_of_mem _ h2)

theorem strLt_trans {a b c : String} (h1 : strLt a b = true)
    (h2 : strLt b c = true) : strLt a c = true :=
  keyLt_trans h1 h2

theorem strLt_total {a b : String} (h1 : strLt a b = false) (h2 : a ≠ b) :
    strLt b a = true := by
  refine keyLt_total h1 ?_
  intro hc
  apply h2
  cases a
  cases b
  exact congrArg String.mk hc

theorem sortedKeys_insertSorted (k : String) (v : DValue) {m : BMap}
    (h : SortedKeys m) : SortedKeys (insertSorted k v m) := by
  induction m with
  | nil => simp [insertSorted, SortedKeys]
  | cons kv rest ih =>
    obtain ⟨k0, v0⟩ := kv
    rw [SortedKeys, List.pairwise_cons] at h
    obtain ⟨hall, hrest⟩ := h
    simp only [insertSorted]
    by_cases hlt : strLt k k0 = true
    · rw [if_pos hlt]
      rw [SortedKeys, List.pairwise_cons]
      refine ⟨?_, ?_⟩
      · intro kv2 hkv2
        rcases List.mem_cons.mp hkv2 with h | h
        · rw [h]; exact hlt
        · exact strLt_trans hlt (hall kv2 h)
      · rw [SortedKeys] at *
        exact List.pairwise_cons.mpr ⟨hall, hrest⟩
    · rw [if_neg hlt]
      by_cases heq : k = k0
      · rw [if_pos heq]
        subst heq
        rw [SortedKeys, List.pairwise_cons]
        exact ⟨hall, hrest⟩
      · rw [if_neg heq]
        rw [SortedKeys, List.pairwise_cons]
        have hk0k : strLt k0 k = true :=
          strLt_total (Bool.eq_false_iff.mpr (fun hc => hlt hc)) heq
        refine ⟨?_, ih hrest⟩
        intro kv2 hkv2
        rcases mem_insertSorted hkv2 with h | h
        · rw [h]; exact hk0k
        · exact hall kv2 h

theorem strLt_irrefl (a : String) : strLt a a = false :=
  keyLt_irrefl a.data

theorem strLt_ne {a b : String} (h : strLt a b = true) : a ≠ b := by
  intro hc
  subst hc
  rw [strLt_irrefl] at h
  exact absurd h (by simp)

theorem extendMap_nil (m : BMap) : extendMap m [] = m := rfl

theorem extendMap_cons (m : BMap) (kv : String × DValue) (rest : BMap) :
    extendMap m (kv :: rest) = extendMap (insertSorted kv.1 kv.2 m) rest := rfl

theorem lookup_extendMap_not_mem (k : String) (m data : BMap)
    (h : k ∉ data.map Prod.fst) :
    lookupKey k (extendMap m data) = lookupKey k m := by
  induction data generalizing m with
  | nil => rfl
  | cons kv rest ih =>
    obtain ⟨k0, v0⟩ := kv
    rw [extendMap_cons]
    have hne : k ≠ k0 := by
      intro hc; exact h (by simp [hc])
    have hrest : k ∉ rest.map Prod.fst := by
      intro hc; exact h (by simp; exact Or.inr (by simpa using hc))
    rw [ih _ hrest, lookup_insertSorted_ne k k0 v0 m hne]

theorem lookup_extendMap_mem (k : String) (v : DValue) (m data : BMap)
    (hs : SortedKeys data) (hmem : (k, v) ∈ data) :
    lookupKey k (extendMap m data) = some v := by
  induction data generalizing m with
  | nil => simp at hmem
  | cons kv rest ih =>
    obtain ⟨k0, v0⟩ := kv
    rw [SortedKeys, List.pairwise_cons] at hs
    obtain ⟨hall, hrest⟩ := hs
    rw [extendMap_cons]
    rcases List.mem_cons.mp hmem with h | h
    · obtain ⟨hk, hv⟩ := Prod.mk.injEq .. ▸ h
      subst hk
      subst hv
      have hnot : k ∉ rest.map Prod.fst := by
        intro hc
        obtain ⟨kv2, hkv2, hfst⟩ := List.mem_map.mp hc
        have hlt := hall kv2 hkv2
        rw [hfst] at hlt
        exact strLt_ne hlt rfl
      rw [lookup_extendMap_not_mem k _ rest hnot]
      exact lookup_insertSorted_self k v m
    · exact ih _ hrest h

theorem sortedKeys_extendMap (m data : BMap) (h : SortedKeys m) :
    SortedKeys (extendMap m data) := by
  induction data generalizing m with
  | nil => exact h
  | cons kv rest ih =>
    rw [extendMap_cons]
    exact ih _ (sortedKeys_insertSorted kv.1 kv.2 h)

/-! ### Operation sequences for lifecycle claims -/

/-- A mutation of a context over its lifecycle: one `insert` call or one
`extend` call (the only mutating operations of the `Context` trait). -/
inductive CtxOp where
  | insertOp (k : String) (v : DValue)
  | extendOp (data : BMap)
deriving DecidableEq, Repr

/-- Apply one mutation. -/
def applyOp (c : TestContext) : CtxOp → TestContext
  | .insertOp k v => c.insert k v
  | .extendOp data => c.extend data

/-- The keys an operation writes to. -/
def opTouches : CtxOp → List String
  | .insertOp k _ => [k]
  | .extendOp data => data.map Prod.fst

/-- A context built from an arbitrary finite sequence of mutations,
starting from `Context::new`. -/
def buildContext (ops : List CtxOp) : TestContext :=
  ops.foldl applyOp TestContext.new

theorem get_foldl_untouched (ops : List CtxOp) (k : String) (c : TestContext)
    (hc : c.get k = none) (h : ∀ op ∈ ops, k ∉ opTouches op) :
    (ops.foldl applyOp c).get k = none := by
  induction ops generalizing c with
  | nil => exact hc
  | cons op rest ih =>
    rw [List.foldl_cons]
    refine ih _ ?_ (fun o ho => h o (List.mem_cons_of_mem _ ho))
    have hop : k ∉ opTouches op := h op (List.mem_cons_self _ _)
    cases op with
    | insertOp k0 v =>
      have hne : k ≠ k0 := by
        intro hc2; exact hop (by simp [opTouches, hc2])
      simpa [applyOp, TestContext.insert, TestContext.get,
        lookup_insertSorted_ne k k0 v c.data hne] using hc
    | extendOp data =>
      have hnm : k ∉ data.map Prod.fst := by simpa [opTouches] using hop
      simpa [applyOp, TestContext.extend, TestContext.get,
        lookup_extendMap_not_mem k c.data data hnm] using hc

theorem sortedKeys_foldl (ops : List CtxOp) (c : TestContext)
    (hc : SortedKeys c.data) : SortedKeys ((ops.foldl applyOp c).data) := by
  induction ops generalizing c with
  | nil => exact hc
  | cons op rest ih =>
    rw [List.foldl_cons]
    refine ih _ ?_
    cases op with
    | insertOp k v => exact sortedKeys_insertSorted k v hc
    | extendOp data => exact sortedKeys_extendMap _ data hc

/-! ### Claims about the pure map operations -/

/-- C2: inserting a value under a key that is already present replaces the old
value (`get` returns only the second value), and `extend` with an overlapping
key set lets every incoming value win while every key not in the incoming map
keeps its previous value. -/
theorem insert_overwrite_extend_merge
    (c : TestContext) (k : String) (v1 v2 : DValue) (data : BMap) :
    ((c.insert k v1).insert k v2).get k = some v2
    ∧ (SortedKeys data →
        ∀ k0 v0, (k0, v0) ∈ data → (c.extend data).get k0 = some v0)
    ∧ (∀ k0, k0 ∉ data.map Prod.fst → (c.extend data).get k0 = c.get k0) := by
  refine ⟨?_, ?_, ?_⟩
  · exact lookup_insertSorted_self k v2 _
  · intro hs k0 v0 hmem
    exact lookup_extendMap_mem k0 v0 c.data data hs hmem
  · intro k0 hnm
    exact lookup_extendMap_not_mem k0 c.data data hnm

/-- Witness for C2 at concrete inputs: the repeated key keeps only the second
value, the overlapping key of an `extend` takes the incoming value, and a
non-overlapping key is untouched. -/
theorem insert_overwrite_extend_merge_witness :
    ((TestContext.new.insert "k" (.u64 1)).insert "k" (.u64 2)).get "k"
        = some (.u64 2)
    ∧ ((TestContext.new.insert "key1" (.str "value1")).extend
        [("key1", .str "new"), ("key3", .bool true)]).get "key1"
        = some (.str "new")
    ∧ ((TestContext.new.insert "key1" (.str "value1")).extend
        [("key3", .bool true)]).get "key1"
        = (TestContext.new.insert "key1" (.str "value1")).get "key1" := by
  refine ⟨(insert_overwrite_extend_merge TestContext.new "k" (.u64 1) (.u64 2) []).1,
    ?_, ?_⟩
  · exact (insert_overwrite_extend_merge
      (TestContext.new.insert "key1" (.str "value1")) "k" .unit .unit
      [("key1", .str "new"), ("key3", .bool true)]).2.1
      (by decide) "key1" (.str "new") (by decide)
  · exact (insert_overwrite_extend_merge
      (TestContext.new.insert "key1" (.str "value1")) "k" .unit .unit
      [("key3", .bool true)]).2.2 "key1" (by decide)

/-- C3: `get` on a key never written by any insert or extend of the context
lifecycle returns `none`; `get` is a pure read and returns no error. -/
theorem get_never_inserted (ops : List CtxOp) (k : String)
    (h : ∀ op ∈ ops, k ∉ opTouches op) :
    (buildContext ops).get k = none :=
  get_foldl_untouched ops k TestContext.new rfl h

/-- Witness for C3: a key distinct from every written key reads back `none`. -/
theorem get_never_inserted_witness :
    (buildContext [.insertOp "a" (.u64 1),
      .extendOp [("b", .bool true)]]).get "non_existent" = none :=
  get_never_inserted _ "non_existent" (by decide)

/-- C8: after every sequence of insert and extend operations, the keys of
`inner` are in strictly ascending key order, independent of insertion order. -/
theorem inner_keys_sorted (ops : List CtxOp) :
    List.Pairwise (fun a b => strLt a b = true)
      ((buildContext ops).inner.map Prod.fst) := by
  have h : SortedKeys ((buildContext ops).data) :=
    sortedKeys_foldl ops TestContext.new (by simp [TestContext.new, SortedKeys])
  rw [List.pairwise_map]
  exact h

/-! ### Decimal digits, hex digits, string escaping

Shared rendering and parsing helpers for the three format adapters.
Modelled from the spec: the underlying writers and parsers live in the
external `serde_json`, `toml` and `serde_yaml` crates, which are not part of
this repository; the integer and string syntax below follows those libraries
(decimal integers, double-quoted strings with backslash escapes, `\u00XX`
for control characters). -/

/-- The decimal digit character for `n < 10`. -/
def digitChar10 (n : Nat) : Char := Char.ofNat (48 + n)

/-- Decimal rendering worker; the fuel is structural so the kernel can
evaluate it, and any fuel above the value works. -/
def natToCharsAux : Nat → Nat → List Char
  | 0, _ => []
  | fuel + 1, n =>
    if n < 10 then [digitChar10 n]
    else natToCharsAux fuel (n / 10) ++ [digitChar10 (n % 10)]

/-- Decimal rendering of a natural number, most significant digit first. -/
def natToChars (n : Nat) : List Char := natToCharsAux (n + 1) n

theorem natToCharsAux_irrel :
    ∀ f1 f2 n, n < f1 → n < f2 → natToCharsAux f1 n = natToCharsAux f2 n := by
  intro f1
  induction f1 with
  | zero => intro f2 n h1; omega
  | succ f ih =>
    intro f2 n h1 h2
    cases f2 with
    | zero => omega
    | succ g =>
      rw [natToCharsAux, natToCharsAux]
      by_cases h : n < 10
      · rw [if_pos h, if_pos h]
      · rw [if_neg h, if_neg h]
        rw [ih g (n / 10) (by omega) (by omega)]

theorem natToChars_eq (n : Nat) :
    natToChars n = if n < 10 then [digitChar10 n]
      else natToChars (n / 10) ++ [digitChar10 (n % 10)] := by
  show natToCharsAux (n + 1) n = _
  rw [natToCharsAux]
  by_cases h : n < 10
  · rw [if_pos h, if_pos h]
  · rw [if_neg h, if_neg h]
    rw [natToCharsAux_irrel n (n / 10 + 1) (n / 10) (by omega) (by omega)]
    rfl

/-- Decimal rendering of an integer (sign, then digits), as the serializers
print `i64` values. -/
def intToChars (z : Int) : List Char :=
  if z < 0 then '-' :: natToChars z.natAbs else natToChars z.toNat

/-- Accumulating decimal parser: consume leading digits, return the value and
the unconsumed suffix. -/
def parseNatAux : Nat → List Char → Nat × List Char
  | acc, [] => (acc, [])
  | acc, c :: rest =>
    if c.isDigit then parseNatAux (acc * 10 + (c.toNat - 48)) rest
    else (acc, c :: rest)

/-- One digit step of the accumulating parser. -/
def digitStep (acc : Nat) (c : Char) : Nat := acc * 10 + (c.toNat - 48)

/-- Value of an all-digit character list. -/
def digitsToNat (ds : List Char) : Nat := ds.foldl digitStep 0

/-- True when the list does not start with a decimal digit (so a maximal-munch
number parse stops exactly there). -/
def headNotDigit : List Char → Bool
  | [] => true
  | c :: _ => !c.isDigit

/-- Lowercase hex digit character for `n < 16`, as `serde_json` prints
`\u00XX` escapes. -/
def hexDigitChar (n : Nat) : Char :=
  Char.ofNat (if n < 10 then 48 + n else 87 + n)

/-- Hex digit value of a character. -/
def hexVal? (c : Char) : Option Nat :=
  if c.isDigit then some (c.toNat - 48)
  else if 'a' ≤ c ∧ c ≤ 'f' then some (c.toNat - 87)
  else if 'A' ≤ c ∧ c ≤ 'F' then some (c.toNat - 55)
  else none

/-- JSON-style escaping of one character, as `serde_json` (also used by the
`toml` and `serde_yaml` writers for quoted strings): named escapes for the
common control characters, `\u00XX` for the rest, everything else verbatim. -/
def jsonEscapeChar (c : Char) : List Char :=
  if c = '"' then ['\\', '"']
  else if c = '\\' then ['\\', '\\']
  else if c = '\n' then ['\\', 'n']
  else if c = '\t' then ['\\', 't']
  else if c = '\r' then ['\\', 'r']
  else if c = '\x08' then ['\\', 'b']
  else if c = '\x0c' then ['\\', 'f']
  else if c.toNat < 32 then
    ['\\', 'u', '0', '0', hexDigitChar (c.toNat / 16), hexDigitChar (c.toNat % 16)]
  else [c]

/-- Escape a whole character list. -/
def jsonEscapeChars : List Char → List Char
  | [] => []
  | c :: rest => jsonEscapeChar c ++ jsonEscapeChars rest

/-- A double-quoted, escaped rendering of a string. -/
def jsonQuote (s : String) : List Char :=
  '"' :: jsonEscapeChars s.data ++ ['"']

/-- Inverse of the named escapes. -/
def unescapeChar? (c : Char) : Option Char :=
  if c = '"' then some '"'
  else if c = '\\' then some '\\'
  else if c = '/' then some '/'
  else if c = 'n' then some '\n'
  else if c = 't' then some '\t'
  else if c = 'r' then some '\r'
  else if c = 'b' then some '\x08'
  else if c = 'f' then some '\x0c'
  else none

/-- Parse the body of a double-quoted string (opening quote already consumed):
collect characters and decode escapes until the closing quote.  Surrogate
pairs are outside the model; the writers above never emit them. -/
def parseStr : List Char → Except String (List Char × List Char)
  | [] => .error ("EOF while parsing a string")
  | c :: rest =>
    if c = '"' then .ok ([], rest)
    else if c = '\\' then
      match rest with
      | [] => .error ("EOF while parsing an escape sequence")
      | e :: rest2 =>
        if e = 'u' then
          match rest2 with
          | h1 :: h2 :: h3 :: h4 :: rest3 =>
            match hexVal? h1, hexVal? h2, hexVal? h3, hexVal? h4 with
            | some a, some b, some c2, some d =>
              match parseStr rest3 with
              | .ok (cs, r) =>
                .ok (Char.ofNat (((a * 16 + b) * 16 + c2) * 16 + d) :: cs, r)
              | .error msg => .error msg
            | _, _, _, _ => .error ("invalid unicode escape")
          | _ => .error ("EOF in unicode escape")
        else
          match unescapeChar? e with
          | some c2 =>
            match parseStr rest2 with
            | .ok (cs, r) => .ok (c2 :: cs, r)
            | .error msg => .error msg
          | none => .error ("invalid escape character")
    else
      match parseStr rest with
      | .ok (cs, r) => .ok (c :: cs, r)
      | .error msg => .error msg

/-- Whitespace characters skipped by the JSON parser. -/
def isWsChar (c : Char) : Bool :=
  c = ' ' || c = '\n' || c = '\t' || c = '\r'

/-- Drop leading whitespace. -/
def skipWs : List Char → List Char
  | [] => []
  | c :: rest => if isWsChar c then skipWs rest else c :: rest

/-- Take the longest prefix satisfying `p`, return it with the suffix. -/
def munchWhile (p : Char → Bool) : List Char → List Char × List Char
  | [] => ([], [])
  | c :: rest =>
    if p c then
      let (tk, rs) := munchWhile p rest
      (c :: tk, rs)
    else ([], c :: rest)

/-! ### Digit lemmas -/

theorem digitChar10_isDigit : ∀ n, n < 10 → (digitChar10 n).isDigit = true := by
  decide

theorem digitChar10_toNat : ∀ n, n < 10 → (digitChar10 n).toNat = 48 + n := by
  decide

theorem natToChars_ne_nil (n : Nat) : natToChars n ≠ [] := by
  rw [natToChars_eq]
  split
  · simp
  · simp

theorem natToChars_all_digits (n : Nat) :
    ∀ c ∈ natToChars n, c.isDigit = true := by
  induction n using Nat.strong_induction_on with
  | _ n ih =>
    rw [natToChars_eq]
    split
    · intro c hc
      simp at hc
      subst hc
      exact digitChar10_isDigit n (by omega)
    · intro c hc
      simp at hc
      rcases hc with hc | hc
      · exact ih (n / 10) (Nat.div_lt_self (by omega) (by omega)) c hc
      · subst hc
        exact digitChar10_isDigit _ (Nat.mod_lt _ (by omega))

theorem parseNatAux_digits (ds : List Char) (rest : List Char) (acc : Nat)
    (h : ∀ c ∈ ds, c.isDigit = true) :
    parseNatAux acc (ds ++ rest) = parseNatAux (ds.foldl digitStep acc) rest := by
  induction ds generalizing acc with
  | nil => rfl
  | cons c rest2 ih =>
    have hc : c.isDigit = true := h c (List.mem_cons_self _ _)
    simp only [List.cons_append, parseNatAux, hc, if_true, List.foldl_cons]
    exact ih _ (fun c2 h2 => h c2 (List.mem_cons_of_mem _ h2))

theorem parseNatAux_stop (acc : Nat) (rest : List Char)
    (h : headNotDigit rest = true) : parseNatAux acc rest = (acc, rest) := by
  cases rest with
  | nil => rfl
  | cons c rs =>
    simp only [headNotDigit, Bool.not_eq_true'] at h
    simp [parseNatAux, h]

theorem foldl_digitStep_natToChars (n : Nat) :
    ∀ acc, (natToChars n).foldl digitStep acc
      = acc * 10 ^ (natToChars n).length + n := by
  induction n using Nat.strong_induction_on with
  | _ n ih =>
    intro acc
    rw [natToChars_eq]
    split
    · rename_i h
      simp only [List.foldl_cons, List.foldl_nil, List.length_cons,
        List.length_nil, digitStep]
      rw [digitChar10_toNat n h]
      simp only [List.length_nil, Nat.zero_add, pow_one]
      omega
    · rename_i h
      rw [List.foldl_append, List.length_append]
      rw [ih (n / 10) (Nat.div_lt_self (by omega) (by omega)) acc]
      simp only [List.foldl_cons, List.foldl_nil, List.length_cons,
        List.length_nil, digitStep]
      rw [digitChar10_toNat _ (Nat.mod_lt _ (by omega))]
      have hdm : 10 * (n / 10) + n % 10 = n := Nat.div_add_mod n 10
      have hpow : 10 ^ ((natToChars (n / 10)).length + (0 + 1))
          = 10 ^ (natToChars (n / 10)).length * 10 := by
        rw [Nat.zero_add, pow_succ]
      rw [hpow]
      ring_nf
      omega

theorem parseNatAux_natToChars (n : Nat) (rest : List Char)
    (h : headNotDigit rest = true) :
    parseNatAux 0 (natToChars n ++ rest) = (n, rest) := by
  rw [parseNatAux_digits _ _ _ (natToChars_all_digits n),
    parseNatAux_stop _ _ h, foldl_digitStep_natToChars]
  simp

theorem digitsToNat_natToChars (n : Nat) : digitsToNat (natToChars n) = n := by
  rw [digitsToNat, foldl_digitStep_natToChars]
  simp

/-! ### String escape round trip -/

theorem hexVal_hexDigitChar : ∀ m, m < 16 → hexVal? (hexDigitChar m) = some m := by
  decide

theorem parseStr_jsonEscape (cs : List Char) (rest : List Char) :
    parseStr (jsonEscapeChars cs ++ '"' :: rest) = .ok (cs, rest) := by
  induction cs with
  | nil =>
    rw [show jsonEscapeChars [] = [] from rfl, List.nil_append, parseStr.eq_def]
    simp
  | cons c cs ih =>
    show parseStr ((jsonEscapeChar c ++ jsonEscapeChars cs) ++ '"' :: rest) = _
    rw [List.append_assoc]
    by_cases h1 : c = '"'
    · subst h1
      rw [show jsonEscapeChar '"' = ['\\', '"'] from by decide]
      simp only [List.cons_append, List.nil_append]
      rw [parseStr.eq_def]
      simp [unescapeChar?, ih]
    by_cases h2 : c = '\\'
    · subst h2
      rw [show jsonEscapeChar '\\' = ['\\', '\\'] from by decide]
      simp only [List.cons_append, List.nil_append]
      rw [parseStr.eq_def]
      simp [unescapeChar?, ih]
    by_cases h3 : c = '\n'
    · subst h3
      rw [show jsonEscapeChar '\n' = ['\\', 'n'] from by decide]
      simp only [List.cons_append, List.nil_append]
      rw [parseStr.eq_def]
      simp [unescapeChar?, ih]
    by_cases h4 : c = '\t'
    · subst h4
      rw [show jsonEscapeChar '\t' = ['\\', 't'] from by decide]
      simp only [List.cons_append, List.nil_append]
      rw [parseStr.eq_def]
      simp [unescapeChar?, ih]
    by_cases h5 : c = '\r'
    · subst h5
      rw [show jsonEscapeChar '\r' = ['\\', 'r'] from by decide]
      simp only [List.cons_append, List.nil_append]
      rw [parseStr.eq_def]
      simp [unescapeChar?, ih]
    by_cases h6 : c = '\x08'
    · subst h6
      rw [show jsonEscapeChar '\x08' = ['\\', 'b'] from by decide]
      simp only [List.cons_append, List.nil_append]
      rw [parseStr.eq_def]
      simp [unescapeChar?, ih]
    by_cases h7 : c = '\x0c'
    · subst h7
      rw [show jsonEscapeChar '\x0c' = ['\\', 'f'] from by decide]
      simp only [List.cons_append, List.nil_append]
      rw [parseStr.eq_def]
      simp [unescapeChar?, ih]
    by_cases h8 : c.toNat < 32
    · rw [jsonEscapeChar, if_neg h1, if_neg h2, if_neg h3, if_neg h4,
        if_neg h5, if_neg h6, if_neg h7, if_pos h8]
      simp only [List.cons_append, List.nil_append]
      rw [parseStr.eq_def]
      simp only [reduceIte]
      rw [hexVal_hexDigitChar _ (by omega : c.toNat / 16 < 16),
        hexVal_hexDigitChar _ (by omega : c.toNat % 16 < 16)]
      simp [hexVal?, ih]
      have harith : c.toNat / 16 * 16 + c.toNat % 16 = c.toNat := by omega
      rw [harith, Char.ofNat_toNat]
    · rw [jsonEscapeChar, if_neg h1, if_neg h2, if_neg h3, if_neg h4,
        if_neg h5, if_neg h6, if_neg h7, if_neg h8]
      simp only [List.cons_append, List.nil_append]
      rw [parseStr.eq_def]
      simp only [if_neg h1, if_neg h2]
      rw [ih]

/-! ### JSON adapter

Modelled from the spec: `Context::to_json` calls `serde_json::to_string` /
`serde_json::to_string_pretty` on `inner()`, and `Context::from_json` parses
with `serde_json::from_str::<BTreeMap<String, serde_json::Value>>`, converts
each value through `serde_value::Value::deserialize` and `extend`s a new
context (src/context.rs lines 126-158).  The external `serde_json` crate is
not part of the repository; its behaviour on the modelled fragment is encoded
below, including its integer tagging: a number without sign parses as `u64`,
a `-`-signed number as `i64`. -/

/-- JSON rendering of one scalar value. -/
def renderJsonValue : DValue → List Char
  | .str s => jsonQuote s
  | .bool true => ['t', 'r', 'u', 'e']
  | .bool false => ['f', 'a', 'l', 's', 'e']
  | .i64 z => intToChars z
  | .u64 n => natToChars n
  | .unit => ['n', 'u', 'l', 'l']

/-- JSON rendering of the members of an object, parameterized by the
whitespace after each colon (`sepKV`) and after each comma (`sepE`), which is
how the compact and the pretty writer differ on the flat fragment. -/
def renderJsonMembersWith (sepKV sepE : List Char) : BMap → List Char
  | [] => []
  | [(k, v)] => jsonQuote k ++ ':' :: (sepKV ++ renderJsonValue v)
  | (k, v) :: rest =>
    jsonQuote k ++ ':' :: (sepKV ++ renderJsonValue v)
      ++ ',' :: (sepE ++ renderJsonMembersWith sepKV sepE rest)

/-- Compact JSON object, as `serde_json::to_string`. -/
def renderJsonCompact (m : BMap) : List Char :=
  '{' :: renderJsonMembersWith [] [] m ++ ['}']

/-- Pretty JSON object with two-space indent, as
`serde_json::to_string_pretty` on a flat map. -/
def renderJsonPretty (m : BMap) : List Char :=
  match m with
  | [] => ['{', '}']
  | _ =>
    '{' :: '\n' :: ' ' :: ' '
      :: renderJsonMembersWith [' '] ['\n', ' ', ' '] m ++ '\n' :: ['}']

/-- `Context::to_json` (src/context.rs lines 153-158): serialize `inner()`,
pretty or compact. -/
def TestContext.to_json (c : TestContext) (pretty : Bool) : Except Error String :=
  match pretty with
  | true => .ok (String.mk (renderJsonPretty c.inner))
  | false => .ok (String.mk (renderJsonCompact c.inner))

/-- Parse one JSON scalar value, with the integer tagging of
`serde_json` numbers followed by `serde_value::Value::deserialize`:
unsigned for plain digits, signed for `-` numbers.  Nested arrays, objects
and float literals are outside the modelled fragment and rejected. -/
def parseJsonValue : List Char → Except String (DValue × List Char)
  | [] => .error ("EOF while parsing a value")
  | c :: rest =>
    if c = '"' then
      match parseStr rest with
      | .ok (cs, r) => .ok (.str (String.mk cs), r)
      | .error msg => .error msg
    else if c = '-' then
      match rest with
      | d :: _ =>
        if d.isDigit then
          match parseNatAux 0 rest with
          | (n, r) => .ok (.i64 (-(n : Int)), r)
        else .error ("invalid number")
      | [] => .error ("EOF while parsing a number")
    else if c.isDigit then
      match parseNatAux 0 (c :: rest) with
      | (n, r) => .ok (.u64 n, r)
    else if c = 't' then
      match rest with
      | 'r' :: 'u' :: 'e' :: r => .ok (.bool true, r)
      | _ => .error ("expected value")
    else if c = 'f' then
      match rest with
      | 'a' :: 'l' :: 's' :: 'e' :: r => .ok (.bool false, r)
      | _ => .error ("expected value")
    else if c = 'n' then
      match rest with
      | 'u' :: 'l' :: 'l' :: r => .ok (.unit, r)
      | _ => .error ("expected value")
    else .error ("expected value")

/-- Parse the members of a JSON object, starting at the first key and
consuming the closing brace.  The fuel only bounds the number of members and
is in practice at least the input length. -/
def parseJsonMembers : Nat → List Char → Except String (BMap × List Char)
  | 0, _ => .error ("object has too many members")
  | fuel + 1, l =>
    match l with
    | '"' :: rest =>
      match parseStr rest with
      | .error msg => .error msg
      | .ok (kcs, r1) =>
        match skipWs r1 with
        | ':' :: r2 =>
          match parseJsonValue (skipWs r2) with
          | .error msg => .error msg
          | .ok (v, r3) =>
            match skipWs r3 with
            | ',' :: r4 =>
              match parseJsonMembers fuel (skipWs r4) with
              | .ok (es, r) => .ok ((String.mk kcs, v) :: es, r)
              | .error msg => .error msg
            | '}' :: r4 => .ok ([(String.mk kcs, v)], r4)
            | _ => .error ("expected comma or closing brace")
        | _ => .error ("expected colon")
    | _ => .error ("key must be a string")

/-- Parse a whole JSON document whose top level must be an object
(`serde_json::from_str::<BTreeMap<String, _>>` rejects any other top level). -/
def parseJsonObject (l : List Char) : Except String BMap :=
  match skipWs l with
  | [] => .error ("EOF while parsing a value")
  | c0 :: rest =>
    if c0 = '{' then
      match skipWs rest with
      | [] => .error ("EOF while parsing an object")
      | c :: r2 =>
        if c = '}' then
          if skipWs r2 = [] then .ok [] else .error ("trailing characters")
        else
          match parseJsonMembers (l.length + 1) (c :: r2) with
          | .ok (es, r) =>
            if skipWs r = [] then .ok es else .error ("trailing characters")
          | .error msg => .error msg
    else .error ("invalid type: expected a map")

/-- `Context::from_json` (src/context.rs lines 126-137): parse into a string
keyed map, convert the values, then `extend` a fresh context.  A parse error
is tagged `Error::Json` by the `From` impl of src/error.rs. -/
def TestContext.from_json (json : String) : Except Error TestContext :=
  match parseJsonObject json.data with
  | .ok entries => .ok (TestContext.new.extend entries)
  | .error msg => .error (Error.Json msg)

/-- The integer tag a JSON round trip preserves: `serde_json` parses
nonnegative numbers as `u64`, so only negative `i64` values keep their tag. -/
def jsonCanonValue : DValue → Bool
  | .i64 z => decide (z < 0)
  | _ => true

/-! ### Whitespace lemmas -/

/-- Every character of the list is JSON whitespace. -/
abbrev AllWsP (ws : List Char) : Prop := ∀ c ∈ ws, isWsChar c = true

theorem skipWs_ws_append {ws : List Char} (h : AllWsP ws) (l : List Char) :
    skipWs (ws ++ l) = skipWs l := by
  induction ws with
  | nil => rfl
  | cons c rest ih =>
    rw [List.cons_append, skipWs, if_pos (h c (List.mem_cons_self _ _))]
    exact ih (fun c2 h2 => h c2 (List.mem_cons_of_mem _ h2))

theorem skipWs_not_ws {c : Char} (h : isWsChar c = false) (l : List Char) :
    skipWs (c :: l) = c :: l := by
  rw [skipWs, if_neg (by simp [h])]

theorem ws_cases {c : Char} (h : isWsChar c = true) :
    c = ' ' ∨ c = '\n' ∨ c = '\t' ∨ c = '\r' := by
  rw [isWsChar] at h
  simp only [Bool.or_eq_true, decide_eq_true_eq] at h
  tauto

theorem ws_not_digit {c : Char} (h : isWsChar c = true) : c.isDigit = false := by
  rcases ws_cases h with h1 | h1 | h1 | h1 <;> subst h1 <;> decide

theorem digit_not_ws {c : Char} (h : c.isDigit = true) : isWsChar c = false := by
  cases hc : isWsChar c
  · rfl
  · rw [ws_not_digit hc] at h
    exact absurd h (by simp)

theorem headNotDigit_ws_close {close : List Char} (h : AllWsP close)
    (c : Char) (hc : c.isDigit = false) (l : List Char) :
    headNotDigit (close ++ c :: l) = true := by
  cases close with
  | nil => simp [headNotDigit, hc]
  | cons w ws =>
    have hw : isWsChar w = true := h w (List.mem_cons_self _ _)
    simp [headNotDigit, ws_not_digit hw]

/-! ### Value render and parse round trip -/

theorem renderJsonValue_head (v : DValue) :
    ∃ c t, renderJsonValue v = c :: t ∧ isWsChar c = false ∧ c ≠ ',' ∧ c ≠ '}' := by
  cases v with
  | str s =>
    refine ⟨'"', _, rfl, ?_, ?_, ?_⟩ <;> decide
  | bool b => cases b with
    | true =>
      refine ⟨'t', _, rfl, ?_, ?_, ?_⟩ <;> decide
    | false =>
      refine ⟨'f', _, rfl, ?_, ?_, ?_⟩ <;> decide
  | i64 z =>
    rw [renderJsonValue, intToChars]
    by_cases hz : z < 0
    · rw [if_pos hz]
      refine ⟨'-', _, rfl, ?_, ?_, ?_⟩ <;> decide
    · rw [if_neg hz]
      cases hnc : natToChars z.toNat with
      | nil => exact absurd hnc (natToChars_ne_nil _)
      | cons c t =>
        have hd : c.isDigit = true :=
          natToChars_all_digits _ c (by rw [hnc]; exact List.mem_cons_self _ _)
        refine ⟨c, t, rfl, digit_not_ws hd, ?_, ?_⟩
        · intro hc; subst hc; exact absurd hd (by decide)
        · intro hc; subst hc; exact absurd hd (by decide)
  | u64 n =>
    rw [renderJsonValue]
    cases hnc : natToChars n with
    | nil => exact absurd hnc (natToChars_ne_nil _)
    | cons c t =>
      have hd : c.isDigit = true :=
        natToChars_all_digits _ c (by rw [hnc]; exact List.mem_cons_self _ _)
      refine ⟨c, t, rfl, digit_not_ws hd, ?_, ?_⟩
      · intro hc; subst hc; exact absurd hd (by decide)
      · intro hc; subst hc; exact absurd hd (by decide)
  | unit =>
    refine ⟨'n', _, rfl, ?_, ?_, ?_⟩ <;> decide

theorem skipWs_renderJsonValue (sep : List Char) (h : AllWsP sep)
    (v : DValue) (l : List Char) :
    skipWs (sep ++ (renderJsonValue v ++ l)) = renderJsonValue v ++ l := by
  obtain ⟨c, t, hct, hws, _, _⟩ := renderJsonValue_head v
  rw [skipWs_ws_append h, hct, List.cons_append, skipWs_not_ws hws]

theorem parseJsonValue_render (v : DValue) (hv : jsonCanonValue v = true)
    (rest : List Char) (hrest : headNotDigit rest = true) :
    parseJsonValue (renderJsonValue v ++ rest) = .ok (v, rest) := by
  cases v with
  | str s =>
    show parseJsonValue (('"' :: (jsonEscapeChars s.data ++ ['"'])) ++ rest) = _
    rw [List.cons_append, List.append_assoc]
    rw [parseJsonValue.eq_def]
    simp only [reduceIte]
    rw [show (['"'] : List Char) ++ rest = '"' :: rest from rfl,
      parseStr_jsonEscape]
  | bool b => cases b <;> rfl
  | unit => rfl
  | i64 z =>
    have hz : z < 0 := by
      rw [jsonCanonValue] at hv
      exact of_decide_eq_true hv
    rw [renderJsonValue, intToChars, if_pos hz, List.cons_append]
    cases hnc : natToChars z.natAbs with
    | nil => exact absurd hnc (natToChars_ne_nil _)
    | cons d t =>
      have hd : d.isDigit = true :=
        natToChars_all_digits _ d (by rw [hnc]; exact List.mem_cons_self _ _)
      have heq : d :: (t ++ rest) = natToChars z.natAbs ++ rest := by
        rw [hnc, List.cons_append]
      rw [parseJsonValue.eq_def]
      simp only [reduceIte, hd, if_true]
      rw [if_neg (by decide : ¬ ('-' : Char) = '"')]
      simp only [List.cons_append, hd, if_true]
      rw [heq, parseNatAux_natToChars _ _ hrest]
      have hneg : -((z.natAbs : Int)) = z := by omega
      rw [hneg]
  | u64 n =>
    rw [renderJsonValue]
    cases hnc : natToChars n with
    | nil => exact absurd hnc (natToChars_ne_nil _)
    | cons d t =>
      have hd : d.isDigit = true :=
        natToChars_all_digits _ d (by rw [hnc]; exact List.mem_cons_self _ _)
      have hdq : ¬ d = '"' := by
        intro hc; subst hc; exact absurd hd (by decide)
      have hdm : ¬ d = '-' := by
        intro hc; subst hc; exact absurd hd (by decide)
      have heq : d :: (t ++ rest) = natToChars n ++ rest := by
        rw [hnc, List.cons_append]
      rw [List.cons_append, parseJsonValue.eq_def]
      simp only [if_neg hdq, if_neg hdm, hd, if_true]
      rw [heq, parseNatAux_natToChars _ _ hrest]

/-! ### Object members round trip -/

theorem renderJsonMembersWith_cons_head (sepKV sepE : List Char) (k : String)
    (v : DValue) (es : BMap) :
    ∃ t, renderJsonMembersWith sepKV sepE ((k, v) :: es) = '"' :: t := by
  cases es with
  | nil => exact ⟨_, rfl⟩
  | cons kv2 es2 => exact ⟨_, rfl⟩

theorem skipWs_renderJsonMembers (sep : List Char) (h : AllWsP sep)
    (sepKV sepE : List Char) (k : String) (v : DValue) (es : BMap)
    (l : List Char) :
    skipWs (sep ++ (renderJsonMembersWith sepKV sepE ((k, v) :: es) ++ l))
      = renderJsonMembersWith sepKV sepE ((k, v) :: es) ++ l := by
  obtain ⟨t, ht⟩ := renderJsonMembersWith_cons_head sepKV sepE k v es
  rw [skipWs_ws_append h, ht, List.cons_append, skipWs_not_ws (by decide)]

theorem parseJsonMembers_render
    (sepKV sepE close : List Char)
    (hKV : AllWsP sepKV) (hE : AllWsP sepE) (hC : AllWsP close) :
    ∀ (es : BMap) (k : String) (v : DValue) (fuel : Nat) (rest : List Char),
    (∀ kv ∈ (k, v) :: es, jsonCanonValue kv.2 = true) →
    es.length < fuel →
    parseJsonMembers fuel
      (renderJsonMembersWith sepKV sepE ((k, v) :: es) ++ (close ++ '}' :: rest))
      = .ok ((k, v) :: es, rest) := by
  intro es
  induction es with
  | nil =>
    intro k v fuel rest hcanon hfuel
    obtain ⟨f, rfl⟩ : ∃ f, fuel = f + 1 := ⟨fuel - 1, by omega⟩
    have hv : jsonCanonValue v = true := hcanon (k, v) (List.mem_cons_self _ _)
    have hnd : headNotDigit (close ++ '}' :: rest) = true :=
      headNotDigit_ws_close hC '}' (by decide) rest
    show parseJsonMembers (f + 1)
      ((jsonQuote k ++ ':' :: (sepKV ++ renderJsonValue v))
        ++ (close ++ '}' :: rest)) = _
    rw [jsonQuote]
    simp only [List.cons_append, List.append_assoc, List.singleton_append,
      List.nil_append]
    rw [parseJsonMembers.eq_def]
    simp only []
    rw [parseStr_jsonEscape]
    simp only []
    rw [skipWs_not_ws (by decide)]
    simp only []
    rw [skipWs_renderJsonValue sepKV hKV v (close ++ '}' :: rest)]
    rw [parseJsonValue_render v hv _ hnd]
    simp only []
    rw [skipWs_ws_append hC, skipWs_not_ws (by decide)]
    simp only []
  | cons kv2 es2 ih =>
    intro k v fuel rest hcanon hfuel
    obtain ⟨k2, v2⟩ := kv2
    obtain ⟨f, rfl⟩ : ∃ f, fuel = f + 1 := ⟨fuel - 1, by omega⟩
    have hv : jsonCanonValue v = true := hcanon (k, v) (List.mem_cons_self _ _)
    have hcanon2 : ∀ kv ∈ (k2, v2) :: es2, jsonCanonValue kv.2 = true :=
      fun kv hkv => hcanon kv (List.mem_cons_of_mem _ hkv)
    have hfuel2 : es2.length < f := by
      simp at hfuel
      omega
    have hnd : headNotDigit
        (',' :: (sepE ++ (renderJsonMembersWith sepKV sepE ((k2, v2) :: es2)
          ++ (close ++ '}' :: rest)))) = true := rfl
    show parseJsonMembers (f + 1)
      ((jsonQuote k ++ ':' :: (sepKV ++ renderJsonValue v)
        ++ ',' :: (sepE ++ renderJsonMembersWith sepKV sepE ((k2, v2) :: es2)))
        ++ (close ++ '}' :: rest)) = _
    rw [jsonQuote]
    simp only [List.cons_append, List.append_assoc, List.singleton_append,
      List.nil_append]
    rw [parseJsonMembers.eq_def]
    simp only []
    rw [parseStr_jsonEscape]
    simp only []
    rw [skipWs_not_ws (by decide)]
    simp only []
    rw [skipWs_renderJsonValue sepKV hKV v _]
    rw [parseJsonValue_render v hv _ hnd]
    simp only []
    rw [skipWs_not_ws (by decide)]
    simp only []
    rw [skipWs_renderJsonMembers sepE hE sepKV sepE k2 v2 es2 _]
    rw [ih k2 v2 f rest hcanon2 hfuel2]

theorem renderJsonMembersWith_length (sepKV sepE : List Char) (k : String)
    (v : DValue) (es : BMap) :
    es.length < (renderJsonMembersWith sepKV sepE ((k, v) :: es)).length := by
  induction es generalizing k v with
  | nil =>
    obtain ⟨t, ht⟩ := renderJsonMembersWith_cons_head sepKV sepE k v []
    rw [ht]
    simp
  | cons kv2 es2 ih =>
    obtain ⟨k2, v2⟩ := kv2
    show es2.length + 1 < (jsonQuote k ++ ':' :: (sepKV ++ renderJsonValue v)
      ++ ',' :: (sepE ++ renderJsonMembersWith sepKV sepE ((k2, v2) :: es2))).length
    have h2 := ih k2 v2
    simp only [List.length_append, List.length_cons]
    omega

theorem parseJsonObject_renderCompact (m : BMap)
    (hcanon : ∀ kv ∈ m, jsonCanonValue kv.2 = true) :
    parseJsonObject (renderJsonCompact m) = .ok m := by
  cases m with
  | nil => rfl
  | cons kv es =>
    obtain ⟨k, v⟩ := kv
    obtain ⟨t, ht⟩ := renderJsonMembersWith_cons_head [] [] k v es
    have hlen := renderJsonMembersWith_length [] [] k v es
    rw [ht] at hlen
    simp only [List.length_cons] at hlen
    rw [parseJsonObject.eq_def, renderJsonCompact]
    simp only [List.cons_append]
    rw [skipWs_not_ws (by decide)]
    simp only []
    rw [if_pos trivial]
    rw [show renderJsonMembersWith [] [] ((k, v) :: es) ++ ['}']
      = '"' :: (t ++ ['}']) from by rw [ht]; rfl]
    rw [skipWs_not_ws (by decide)]
    simp only []
    rw [if_neg (by decide : ¬ ('"' : Char) = '}')]
    rw [show ('"' : Char) :: (t ++ ['}'])
      = renderJsonMembersWith [] [] ((k, v) :: es) ++ ([] ++ '}' :: []) from by
        rw [ht]; rfl]
    rw [parseJsonMembers_render [] [] [] (by decide) (by decide) (by decide)
      es k v _ [] hcanon
      (by simp only [List.length_cons, List.length_append, ht]; omega)]
    rfl

theorem parseJsonObject_renderPretty (m : BMap)
    (hcanon : ∀ kv ∈ m, jsonCanonValue kv.2 = true) :
    parseJsonObject (renderJsonPretty m) = .ok m := by
  cases m with
  | nil => rfl
  | cons kv es =>
    obtain ⟨k, v⟩ := kv
    obtain ⟨t, ht⟩ := renderJsonMembersWith_cons_head [' '] ['\n', ' ', ' '] k v es
    have hlen := renderJsonMembersWith_length [' '] ['\n', ' ', ' '] k v es
    rw [ht] at hlen
    simp only [List.length_cons] at hlen
    rw [parseJsonObject.eq_def, renderJsonPretty]
    simp only [List.cons_append]
    rw [skipWs_not_ws (by decide)]
    simp only []
    rw [if_pos trivial]
    rw [show renderJsonMembersWith [' '] ['\n', ' ', ' '] ((k, v) :: es)
        ++ '\n' :: ['}'] = '"' :: (t ++ '\n' :: ['}']) from by rw [ht]; rfl]
    rw [show skipWs ('\n' :: ' ' :: ' ' :: ('"' :: (t ++ '\n' :: ['}'])))
      = '"' :: (t ++ '\n' :: ['}']) from by
        rw [skipWs, if_pos (by decide), skipWs, if_pos (by decide),
          skipWs, if_pos (by decide), skipWs_not_ws (by decide)]]
    simp only []
    rw [if_neg (by decide : ¬ ('"' : Char) = '}')]
    rw [show ('"' : Char) :: (t ++ '\n' :: ['}'])
      = renderJsonMembersWith [' '] ['\n', ' ', ' '] ((k, v) :: es)
        ++ (['\n'] ++ '}' :: []) from by rw [ht]; rfl]
    rw [parseJsonMembers_render [' '] ['\n', ' ', ' '] ['\n']
      (by decide) (by decide) (by decide) es k v _ [] hcanon
      (by simp only [List.length_cons, List.length_append, ht]; omega)]
    rfl
    simp

/-! ### Extending a fresh context with a sorted map is the identity -/

theorem insertSorted_append_gt (k : String) (v : DValue) (acc : BMap)
    (h : ∀ kv ∈ acc, strLt kv.1 k = true) :
    insertSorted k v acc = acc ++ [(k, v)] := by
  induction acc with
  | nil => rfl
  | cons kv0 acc2 ih =>
    obtain ⟨k0, v0⟩ := kv0
    have h0 : strLt k0 k = true := h (k0, v0) (List.mem_cons_self _ _)
    have hn1 : strLt k k0 ≠ true := by
      intro hc
      exact absurd (strLt_trans hc h0) (by rw [strLt_irrefl]; simp)
    have hn2 : k ≠ k0 := Ne.symm (strLt_ne h0)
    rw [insertSorted, if_neg hn1, if_neg hn2, List.cons_append,
      ih (fun kv hkv => h kv (List.mem_cons_of_mem _ hkv))]

theorem extendMap_sorted_append (es : BMap) (hs : SortedKeys es) :
    ∀ acc, (∀ kv ∈ acc, ∀ kv2 ∈ es, strLt kv.1 kv2.1 = true) →
    extendMap acc es = acc ++ es := by
  induction es with
  | nil => intro acc _; simp [extendMap_nil]
  | cons kv es2 ih =>
    intro acc hcross
    obtain ⟨k, v⟩ := kv
    rw [SortedKeys, List.pairwise_cons] at hs
    obtain ⟨hall, hrest⟩ := hs
    rw [extendMap_cons]
    rw [show insertSorted (k, v).1 (k, v).2 acc = acc ++ [(k, v)] from
      insertSorted_append_gt k v acc
        (fun kv hkv => hcross kv hkv (k, v) (List.mem_cons_self _ _))]
    rw [ih hrest (acc ++ [(k, v)]) ?_]
    · rw [List.append_assoc]
      rfl
    · intro kv hkv kv2 hkv2
      rcases List.mem_append.mp hkv with h | h
      · exact hcross kv h kv2 (List.mem_cons_of_mem _ hkv2)
      · simp at h
        rw [h]
        exact hall kv2 hkv2

theorem extendMap_new_sorted (es : BMap) (hs : SortedKeys es) :
    extendMap [] es = es := by
  rw [extendMap_sorted_append es hs [] (by intro kv hkv; simp at hkv)]
  rfl

/-! ### JSON round trip at the context level -/

theorem from_json_to_json (c : TestContext) (hs : SortedKeys c.data)
    (hcanon : ∀ kv ∈ c.data, jsonCanonValue kv.2 = true) (b : Bool) :
    ∃ s, c.to_json b = .ok s
      ∧ Except.map TestContext.inner (TestContext.from_json s) = .ok c.inner := by
  cases b with
  | false =>
    refine ⟨String.mk (renderJsonCompact c.inner), rfl, ?_⟩
    rw [TestContext.from_json]
    rw [show (String.mk (renderJsonCompact c.inner)).data
      = renderJsonCompact c.data from rfl]
    rw [parseJsonObject_renderCompact c.data hcanon]
    show Except.map TestContext.inner
      (.ok (TestContext.new.extend c.data)) = .ok c.inner
    simp only [Except.map]
    rw [show (TestContext.new.extend c.data).inner
      = extendMap [] c.data from rfl]
    rw [extendMap_new_sorted c.data hs]
    rfl
  | true =>
    refine ⟨String.mk (renderJsonPretty c.inner), rfl, ?_⟩
    rw [TestContext.from_json]
    rw [show (String.mk (renderJsonPretty c.inner)).data
      = renderJsonPretty c.data from rfl]
    rw [parseJsonObject_renderPretty c.data hcanon]
    show Except.map TestContext.inner
      (.ok (TestContext.new.extend c.data)) = .ok c.inner
    simp only [Except.map]
    rw [show (TestContext.new.extend c.data).inner
      = extendMap [] c.data from rfl]
    rw [extendMap_new_sorted c.data hs]
    rfl

/-! ### TOML adapter

Modelled from the spec: `Context::to_toml` calls `toml::to_string` /
`toml::to_string_pretty` on `inner()` (src/context.rs lines 201-206) and
`Context::from_toml` parses with
`toml::from_str::<BTreeMap<String, serde_value::Value>>` then `extend`s a new
context (lines 174-185).  The external `toml` crate renders one `key = value`
line per entry, terminated by a newline; on the flat scalar fragment the
pretty and the compact writer produce the same text.  Keys are written bare
when they consist of alphanumerics, `_` and `-`, quoted otherwise; strings
are always quoted; all integers parse back as `i64`; a `serde_value::Unit`
value has no TOML representation and makes serialization fail. -/

/-- Characters allowed in a bare TOML key. -/
def tomlBareChar (c : Char) : Bool := c.isAlphanum || c = '_' || c = '-'

/-- Rendered TOML key: bare when possible, quoted otherwise. -/
def tomlRenderKey (k : String) : List Char :=
  if !k.data.isEmpty && k.data.all tomlBareChar then k.data else jsonQuote k

/-- Rendered TOML value; `Unit` is unsupported by the TOML data model and
errors, as `toml::ser` does. -/
def tomlRenderValue : DValue → Except String (List Char)
  | .str s => .ok (jsonQuote s)
  | .bool true => .ok ['t', 'r', 'u', 'e']
  | .bool false => .ok ['f', 'a', 'l', 's', 'e']
  | .i64 z => .ok (intToChars z)
  | .u64 n => .ok (natToChars n)
  | .unit => .error ("unsupported unit value")

/-- One `key = value` line per entry, each line ending in a newline. -/
def tomlRenderEntries : BMap → Except String (List Char)
  | [] => .ok []
  | (k, v) :: rest =>
    match tomlRenderValue v, tomlRenderEntries rest with
    | .ok vc, .ok rc =>
      .ok (tomlRenderKey k ++ ' ' :: '=' :: ' ' :: (vc ++ '\n' :: rc))
    | .error msg, _ => .error msg
    | _, .error msg => .error msg

/-- `Context::to_toml` (src/context.rs lines 201-206); on this fragment the
pretty flag does not change the rendered text. -/
def TestContext.to_toml (c : TestContext) (pretty : Bool) : Except Error String :=
  match pretty, tomlRenderEntries c.inner with
  | _, .ok l => .ok (String.mk l)
  | _, .error msg => .error (Error.Toml msg)

/-- Drop leading spaces (TOML key-value separator whitespace). -/
def skipSpaces : List Char → List Char
  | [] => []
  | c :: rest => if c = ' ' then skipSpaces rest else c :: rest

/-- Recognize an optionally signed decimal integer. -/
def intLike? : List Char → Option Int
  | [] => none
  | c :: ds =>
    if c = '-' then
      if !ds.isEmpty && ds.all Char.isDigit then some (-(digitsToNat ds : Int))
      else none
    else
      if (c :: ds).all Char.isDigit then some ((digitsToNat (c :: ds) : Int))
      else none

/-- Parse one TOML value: quoted string, boolean literal, or integer
(always tagged `i64`, as the `toml` crate deserializes every integer). -/
def parseTomlValue : List Char → Except String (DValue × List Char)
  | [] => .error ("missing value")
  | c :: rest =>
    if c = '"' then
      match parseStr rest with
      | .ok (cs, r) => .ok (.str (String.mk cs), r)
      | .error msg => .error msg
    else
      match munchWhile tomlBareChar (c :: rest) with
      | (tk, r) =>
        if tk = ['t', 'r', 'u', 'e'] then .ok (.bool true, r)
        else if tk = ['f', 'a', 'l', 's', 'e'] then .ok (.bool false, r)
        else
          match intLike? tk with
          | some z => .ok (.i64 z, r)
          | none => .error ("invalid value")

/-- Parse one TOML key: quoted or bare. -/
def parseTomlKey : List Char → Except String (String × List Char)
  | [] => .error ("empty key")
  | c :: rest =>
    if c = '"' then
      match parseStr rest with
      | .ok (cs, r) => .ok (String.mk cs, r)
      | .error msg => .error msg
    else
      match munchWhile tomlBareChar (c :: rest) with
      | ([], _) => .error ("invalid key")
      | (tk, r) => .ok (String.mk tk, r)

/-- Parse a TOML document of `key = value` lines. -/
def parseTomlLines : Nat → List Char → Except String BMap
  | 0, _ => .error ("document too large")
  | _ + 1, [] => .ok []
  | fuel + 1, c :: rest =>
    match parseTomlKey (c :: rest) with
    | .error msg => .error msg
    | .ok (k, r1) =>
      match skipSpaces r1 with
      | '=' :: r2 =>
        match parseTomlValue (skipSpaces r2) with
        | .error msg => .error msg
        | .ok (v, r3) =>
          match r3 with
          | '\n' :: r4 =>
            match parseTomlLines fuel r4 with
            | .ok es => .ok ((k, v) :: es)
            | .error msg => .error msg
          | [] => .ok [(k, v)]
          | _ => .error ("expected newline")
      | _ => .error ("expected equals sign")

/-- Parse a whole TOML document. -/
def parseTomlDoc (l : List Char) : Except String BMap :=
  parseTomlLines (l.length + 1) l

/-- `Context::from_toml` (src/context.rs lines 174-185): parse, convert, then
`extend` a fresh context; errors are tagged `Error::Toml`. -/
def TestContext.from_toml (toml : String) : Except Error TestContext :=
  match parseTomlDoc toml.data with
  | .ok entries => .ok (TestContext.new.extend entries)
  | .error msg => .error (Error.Toml msg)

/-- The values a TOML round trip preserves: strings, booleans and `i64`
integers.  `u64` comes back as `i64` and `Unit` does not serialize. -/
def tomlCanonValue : DValue → Bool
  | .str _ => true
  | .bool _ => true
  | .i64 _ => true
  | .u64 _ => false
  | .unit => false

/-! ### TOML round trip lemmas -/

theorem munchWhile_append (p : Char → Bool) (A : List Char)
    (hA : ∀ c ∈ A, p c = true) {b : Char} (hb : p b = false) (l : List Char) :
    munchWhile p (A ++ b :: l) = (A, b :: l) := by
  induction A with
  | nil =>
    rw [List.nil_append, munchWhile, if_neg (by simp [hb])]
  | cons c t ih =>
    rw [List.cons_append, munchWhile,
      if_pos (by simp [hA c (List.mem_cons_self _ _)]),
      ih (fun c2 h2 => hA c2 (List.mem_cons_of_mem _ h2))]

theorem digit_bare {c : Char} (h : c.isDigit = true) : tomlBareChar c = true := by
  simp [tomlBareChar, Char.isAlphanum, h]

theorem natToChars_isEmpty (m : Nat) : (natToChars m).isEmpty = false := by
  cases hnc : natToChars m with
  | nil => exact absurd hnc (natToChars_ne_nil m)
  | cons d t => rfl

theorem natToChars_all (m : Nat) : (natToChars m).all Char.isDigit = true := by
  rw [List.all_eq_true]
  exact natToChars_all_digits m

theorem natToChars_ne_word (m : Nat) (c : Char) (hc : c.isDigit = false)
    (t : List Char) : natToChars m ≠ c :: t := by
  intro h
  have hd := natToChars_all_digits m c (h ▸ List.mem_cons_self _ _)
  simp [hd] at hc

theorem natToChars_all_bare (m : Nat) :
    ∀ c ∈ natToChars m, tomlBareChar c = true :=
  fun c hc => digit_bare (natToChars_all_digits m c hc)

theorem parseTomlKey_render (k : String) (l : List Char) :
    parseTomlKey (tomlRenderKey k ++ ' ' :: l) = .ok (k, ' ' :: l) := by
  rw [tomlRenderKey]
  by_cases hbare : (!k.data.isEmpty && k.data.all tomlBareChar) = true
  · rw [if_pos hbare]
    simp only [Bool.and_eq_true, Bool.not_eq_true', List.all_eq_true] at hbare
    obtain ⟨hne, hall⟩ := hbare
    cases hd : k.data with
    | nil => rw [hd] at hne; exact absurd hne (by simp)
    | cons c t =>
      have hc : tomlBareChar c = true :=
        hall c (by rw [hd]; exact List.mem_cons_self _ _)
      have hcq : ¬ c = '"' := by
        intro hq; rw [hq] at hc; exact absurd hc (by decide)
      rw [List.cons_append, parseTomlKey.eq_def]
      simp only [if_neg hcq]
      rw [show c :: (t ++ ' ' :: l) = (c :: t) ++ ' ' :: l from rfl]
      rw [munchWhile_append tomlBareChar (c :: t)
        (by rw [← hd]; exact hall) (by decide) l]
      simp only []
      rw [← hd]
  · rw [if_neg hbare, jsonQuote]
    simp only [List.cons_append, List.append_assoc, List.singleton_append]
    rw [parseTomlKey.eq_def]
    simp only [reduceIte]
    rw [parseStr_jsonEscape]
    simp

theorem skipSpaces_not_space {c : Char} (h : ¬ c = ' ') (l : List Char) :
    skipSpaces (c :: l) = c :: l := by
  rw [skipSpaces, if_neg h]

theorem parseTomlValue_render (v : DValue) (vc : List Char)
    (hr : tomlRenderValue v = .ok vc) (hv : tomlCanonValue v = true)
    (l : List Char) :
    parseTomlValue (vc ++ '\n' :: l) = .ok (v, '\n' :: l) := by
  cases v with
  | str s =>
    simp only [tomlRenderValue, Except.ok.injEq] at hr
    subst hr
    rw [jsonQuote]
    simp only [List.cons_append, List.append_assoc, List.singleton_append]
    rw [parseTomlValue.eq_def]
    simp only [reduceIte]
    rw [parseStr_jsonEscape]
    simp
  | bool b =>
    cases b with
    | true =>
      simp only [tomlRenderValue, Except.ok.injEq] at hr
      subst hr
      rfl
    | false =>
      simp only [tomlRenderValue, Except.ok.injEq] at hr
      subst hr
      rfl
  | u64 n => simp [tomlCanonValue] at hv
  | unit => simp [tomlCanonValue] at hv
  | i64 z =>
    simp only [tomlRenderValue, Except.ok.injEq] at hr
    subst hr
    rw [intToChars]
    by_cases hz : z < 0
    · rw [if_pos hz, List.cons_append, parseTomlValue.eq_def]
      simp only []
      rw [if_neg (by decide : ¬ ('-' : Char) = '"')]
      rw [show '-' :: (natToChars z.natAbs ++ '\n' :: l)
        = ('-' :: natToChars z.natAbs) ++ '\n' :: l from rfl]
      rw [munchWhile_append tomlBareChar ('-' :: natToChars z.natAbs)
        (by
          intro c2 hc2
          rcases List.mem_cons.mp hc2 with h2 | h2
          · rw [h2]; decide
          · exact natToChars_all_bare _ c2 h2)
        (by decide) l]
      simp only []
      rw [if_neg (by simp), if_neg (by simp)]
      rw [intLike?.eq_def]
      simp only [reduceIte]
      rw [if_pos (by simp [natToChars_isEmpty, natToChars_all])]
      rw [digitsToNat_natToChars]
      have hneg : -((z.natAbs : Int)) = z := by omega
      rw [hneg]
    · rw [if_neg hz]
      cases hnc : natToChars z.toNat with
      | nil => exact absurd hnc (natToChars_ne_nil _)
      | cons d t =>
        have hdd : d.isDigit = true :=
          natToChars_all_digits _ d (by rw [hnc]; exact List.mem_cons_self _ _)
        have hdq : ¬ d = '"' := by
          intro hq; rw [hq] at hdd; exact absurd hdd (by decide)
        have hdm : ¬ d = '-' := by
          intro hq; rw [hq] at hdd; exact absurd hdd (by decide)
        rw [List.cons_append, parseTomlValue.eq_def]
        simp only [if_neg hdq]
        rw [show d :: (t ++ '\n' :: l) = (d :: t) ++ '\n' :: l from rfl]
        rw [munchWhile_append tomlBareChar (d :: t)
          (by rw [← hnc]; exact natToChars_all_bare _) (by decide) l]
        simp only []
        rw [if_neg (by rw [← hnc]; exact natToChars_ne_word _ 't' (by decide) _),
          if_neg (by rw [← hnc]; exact natToChars_ne_word _ 'f' (by decide) _)]
        rw [intLike?.eq_def]
        simp only [if_neg hdm]
        rw [if_pos (by rw [← hnc]; exact natToChars_all _)]
        rw [← hnc, digitsToNat_natToChars, Int.toNat_of_nonneg (not_lt.mp hz)]

theorem tomlRenderKey_head (k : String) : ∃ c t, tomlRenderKey k = c :: t := by
  rw [tomlRenderKey]
  by_cases h : (!k.data.isEmpty && k.data.all tomlBareChar) = true
  · rw [if_pos h]
    simp only [Bool.and_eq_true, Bool.not_eq_true'] at h
    cases hd : k.data with
    | nil => rw [hd] at h; exact absurd h.1 (by simp)
    | cons c t => exact ⟨c, t, rfl⟩
  · rw [if_neg h]
    exact ⟨'"', _, rfl⟩

theorem skipSpaces_value (v : DValue) (vc : List Char)
    (hr : tomlRenderValue v = .ok vc) (X : List Char) :
    skipSpaces (vc ++ X) = vc ++ X := by
  have hhead : ∃ c t, vc = c :: t ∧ ¬ c = ' ' := by
    cases v with
    | str s =>
      simp only [tomlRenderValue, Except.ok.injEq] at hr
      subst hr
      exact ⟨'"', _, rfl, by decide⟩
    | bool b =>
      cases b with
      | true =>
        simp only [tomlRenderValue, Except.ok.injEq] at hr
        subst hr
        exact ⟨'t', _, rfl, by decide⟩
      | false =>
        simp only [tomlRenderValue, Except.ok.injEq] at hr
        subst hr
        exact ⟨'f', _, rfl, by decide⟩
    | unit => simp [tomlRenderValue] at hr
    | u64 n =>
      simp only [tomlRenderValue, Except.ok.injEq] at hr
      subst hr
      cases hnc : natToChars n with
      | nil => exact absurd hnc (natToChars_ne_nil _)
      | cons d t =>
        have hdd : d.isDigit = true :=
          natToChars_all_digits _ d (by rw [hnc]; exact List.mem_cons_self _ _)
        refine ⟨d, t, rfl, ?_⟩
        intro hq; rw [hq] at hdd; exact absurd hdd (by decide)
    | i64 z =>
      simp only [tomlRenderValue, Except.ok.injEq] at hr
      subst hr
      rw [intToChars]
      by_cases hz : z < 0
      · rw [if_pos hz]
        exact ⟨'-', _, rfl, by decide⟩
      · rw [if_neg hz]
        cases hnc : natToChars z.toNat with
        | nil => exact absurd hnc (natToChars_ne_nil _)
        | cons d t =>
          have hdd : d.isDigit = true :=
            natToChars_all_digits _ d (by rw [hnc]; exact List.mem_cons_self _ _)
          refine ⟨d, t, rfl, ?_⟩
          intro hq; rw [hq] at hdd; exact absurd hdd (by decide)
  obtain ⟨c, t, hct, hcs⟩ := hhead
  rw [hct, List.cons_append, skipSpaces_not_space hcs]

theorem parseTomlLines_render (es : BMap)
    (hcanon : ∀ kv ∈ es, tomlCanonValue kv.2 = true) :
    ∃ l, tomlRenderEntries es = .ok l ∧ es.length ≤ l.length ∧
      ∀ fuel, es.length < fuel → parseTomlLines fuel l = .ok es := by
  induction es with
  | nil =>
    refine ⟨[], rfl, by simp, fun fuel hf => ?_⟩
    obtain ⟨f, rfl⟩ : ∃ f, fuel = f + 1 := ⟨fuel - 1, by omega⟩
    rfl
  | cons kv es2 ih =>
    obtain ⟨k, v⟩ := kv
    have hv : tomlCanonValue v = true := hcanon (k, v) (List.mem_cons_self _ _)
    have hvc : ∃ vc, tomlRenderValue v = .ok vc := by
      cases v with
      | str s => exact ⟨_, rfl⟩
      | bool b => cases b <;> exact ⟨_, rfl⟩
      | i64 z => exact ⟨_, rfl⟩
      | u64 n => simp [tomlCanonValue] at hv
      | unit => simp [tomlCanonValue] at hv
    obtain ⟨vc, hvc⟩ := hvc
    obtain ⟨l2, hl2, hlen2, hparse2⟩ :=
      ih (fun kv hkv => hcanon kv (List.mem_cons_of_mem _ hkv))
    refine ⟨tomlRenderKey k ++ ' ' :: '=' :: ' ' :: (vc ++ '\n' :: l2),
      ?_, ?_, ?_⟩
    · rw [tomlRenderEntries, hvc, hl2]
    · simp only [List.length_append, List.length_cons]
      omega
    · intro fuel hf
      obtain ⟨f, rfl⟩ : ∃ f, fuel = f + 1 := ⟨fuel - 1, by omega⟩
      obtain ⟨c0, t0, hk0⟩ := tomlRenderKey_head k
      rw [hk0, List.cons_append, parseTomlLines.eq_def]
      simp only []
      rw [show c0 :: (t0 ++ ' ' :: '=' :: ' ' :: (vc ++ '\n' :: l2))
        = (c0 :: t0) ++ ' ' :: ('=' :: ' ' :: (vc ++ '\n' :: l2)) from rfl]
      rw [← hk0, parseTomlKey_render k _]
      simp only []
      rw [show skipSpaces (' ' :: ('=' :: ' ' :: (vc ++ '\n' :: l2)))
        = '=' :: (' ' :: (vc ++ '\n' :: l2)) from by
          rw [skipSpaces, if_pos rfl, skipSpaces_not_space (by decide)]]
      simp only []
      rw [show skipSpaces (' ' :: (vc ++ '\n' :: l2)) = vc ++ '\n' :: l2 from by
        rw [skipSpaces, if_pos rfl, skipSpaces_value v vc hvc]]
      rw [parseTomlValue_render v vc hvc hv l2]
      simp only []
      rw [hparse2 f (by simp only [List.length_cons] at hf; omega)]

theorem from_toml_to_toml (c : TestContext) (hs : SortedKeys c.data)
    (hcanon : ∀ kv ∈ c.data, tomlCanonValue kv.2 = true) (b : Bool) :
    ∃ s, c.to_toml b = .ok s
      ∧ Except.map TestContext.inner (TestContext.from_toml s) = .ok c.inner := by
  obtain ⟨l, hl, hlen, hparse⟩ := parseTomlLines_render c.data hcanon
  refine ⟨String.mk l, ?_, ?_⟩
  · cases b with
    | true =>
      rw [TestContext.to_toml.eq_def, show c.inner = c.data from rfl, hl]
    | false =>
      rw [TestContext.to_toml.eq_def, show c.inner = c.data from rfl, hl]
  · rw [TestContext.from_toml, show (String.mk l).data = l from rfl,
      parseTomlDoc, hparse (l.length + 1) (by omega)]
    simp only [Except.map]
    rw [show (TestContext.new.extend c.data).inner = extendMap [] c.data from rfl,
      extendMap_new_sorted c.data hs]
    rfl

/-! ### YAML adapter

Modelled from the spec: `Context::to_yaml` calls `serde_yaml::to_string` on
`inner()` (src/context.rs lines 245-247) and `Context::from_yaml` parses with
`serde_yaml::from_str::<BTreeMap<String, serde_json::Value>>` then `extend`s
a new context (lines 222-233).  The external `serde_yaml` crate renders one
`key: value` line per entry (an empty map renders as the flow form followed
by a newline); scalars are written plain when they cannot be mistaken for a
boolean, null or number, double quoted otherwise; parsed numbers go through
`serde_json::Value`, so nonnegative integers come back as `u64` and negative
ones as `i64`.  A plain key that reads back as a boolean, null or number
fails to deserialize into `String`, and block-sequence or nested-mapping
syntax in a value position is a parse error. -/

/-- Characters this model allows in a plain YAML scalar. -/
def yamlPlainChar (c : Char) : Bool := c.isAlphanum || c = '_' || c = '-'

/-- A scalar can be rendered plain when it is nonempty, uses only plain
characters, and does not read back as a boolean, null or number. -/
def yamlPlainOk (cs : List Char) : Bool :=
  !cs.isEmpty && cs.all yamlPlainChar
    && !(decide (cs = ['t', 'r', 'u', 'e']))
    && !(decide (cs = ['f', 'a', 'l', 's', 'e']))
    && !(decide (cs = ['n', 'u', 'l', 'l']))
    && !(decide (cs = ['~']))
    && (intLike? cs).isNone

/-- Rendered YAML key: plain when possible, double quoted otherwise. -/
def yamlRenderKey (k : String) : List Char :=
  if yamlPlainOk k.data then k.data else jsonQuote k

/-- Rendered YAML scalar value. -/
def yamlRenderValue : DValue → List Char
  | .str s => if yamlPlainOk s.data then s.data else jsonQuote s
  | .bool true => ['t', 'r', 'u', 'e']
  | .bool false => ['f', 'a', 'l', 's', 'e']
  | .i64 z => intToChars z
  | .u64 n => natToChars n
  | .unit => ['n', 'u', 'l', 'l']

/-- One `key: value` line per entry. -/
def yamlRenderEntries : BMap → List Char
  | [] => []
  | (k, v) :: rest =>
    yamlRenderKey k ++ ':' :: ' ' :: (yamlRenderValue v ++ '\n' :: yamlRenderEntries rest)

/-- `Context::to_yaml` (src/context.rs lines 245-247): one canonical
rendering, no pretty flag. -/
def TestContext.to_yaml (c : TestContext) : Except Error String :=
  match c.inner with
  | [] => .ok (String.mk ['{', '}', '\n'])
  | m => .ok (String.mk (yamlRenderEntries m))

/-- Characters a plain YAML key may contain before the colon. -/
def yamlPlainKeyChar (c : Char) : Bool := !(c = ':') && !(c = '\n')

/-- True when the scalar contains a `: ` pair, which would start a nested
mapping. -/
def hasColonSpace : List Char → Bool
  | [] => false
  | c :: rest =>
    (decide (c = ':') && (match rest with
      | c2 :: _ => decide (c2 = ' ')
      | [] => false)) || hasColonSpace rest

/-- True when the scalar starts a block sequence entry (`- ` prefix). -/
def yamlSeqStart : List Char → Bool
  | c :: c2 :: _ => decide (c = '-') && decide (c2 = ' ')
  | _ => false

/-- Parse one YAML key: quoted, or plain provided it deserializes as a
string (not a boolean, null or number). -/
def parseYamlKey : List Char → Except String (String × List Char)
  | [] => .error ("empty document line")
  | c :: rest =>
    if c = '"' then
      match parseStr rest with
      | .ok (cs, r) => .ok (String.mk cs, r)
      | .error msg => .error msg
    else
      match munchWhile yamlPlainKeyChar (c :: rest) with
      | (tk, r) =>
        if tk.isEmpty then .error ("invalid key")
        else if decide (tk = ['t', 'r', 'u', 'e'])
            || decide (tk = ['f', 'a', 'l', 's', 'e'])
            || decide (tk = ['n', 'u', 'l', 'l'])
            || decide (tk = ['~'])
            || (intLike? tk).isSome then
          .error ("invalid type: key is not a string")
        else .ok (String.mk tk, r)

/-- Parse one YAML scalar value, with the tag choice of `serde_json::Value`
numbers: nonnegative integers become `u64`, negative `i64`. -/
def parseYamlValue : List Char → Except String (DValue × List Char)
  | [] => .error ("missing value")
  | c :: rest =>
    if c = '"' then
      match parseStr rest with
      | .ok (cs, r) => .ok (.str (String.mk cs), r)
      | .error msg => .error msg
    else
      match munchWhile (fun c2 => !(c2 = '\n')) (c :: rest) with
      | (tk, r) =>
        if decide (tk = ['t', 'r', 'u', 'e']) then .ok (.bool true, r)
        else if decide (tk = ['f', 'a', 'l', 's', 'e']) then .ok (.bool false, r)
        else if decide (tk = ['n', 'u', 'l', 'l']) || decide (tk = ['~']) then
          .ok (.unit, r)
        else
          match intLike? tk with
          | some z => .ok (if z < 0 then .i64 z else .u64 z.toNat, r)
          | none =>
            match tk with
            | [] => .error ("empty scalar")
            | c2 :: t2 =>
              if c2 = '[' then .error ("unsupported flow sequence")
              else if c2 = '{' then .error ("unsupported flow mapping")
              else if yamlSeqStart (c2 :: t2) then
                .error ("block sequence entries are not allowed here")
              else if hasColonSpace (c2 :: t2) then
                .error ("nested mappings are not allowed here")
              else .ok (.str (String.mk (c2 :: t2)), r)

/-- Parse a YAML document of `key: value` lines. -/
def parseYamlLines : Nat → List Char → Except String BMap
  | 0, _ => .error ("document too large")
  | _ + 1, [] => .ok []
  | fuel + 1, c :: rest =>
    match parseYamlKey (c :: rest) with
    | .error msg => .error msg
    | .ok (k, r1) =>
      match r1 with
      | ':' :: r1b =>
        match r1b with
        | ' ' :: r2 =>
          match parseYamlValue r2 with
          | .error msg => .error msg
          | .ok (v, r3) =>
            match r3 with
            | '\n' :: r4 =>
              match parseYamlLines fuel r4 with
              | .ok es => .ok ((k, v) :: es)
              | .error msg => .error msg
            | [] => .ok [(k, v)]
            | _ => .error ("expected newline")
        | _ => .error ("expected space after colon")
      | _ => .error ("expected colon")

/-- Parse a whole YAML document: the empty flow mapping, or line-based
`key: value` pairs. -/
def parseYamlDoc (l : List Char) : Except String BMap :=
  if decide (l = ['{', '}']) || decide (l = ['{', '}', '\n']) then .ok []
  else parseYamlLines (l.length + 1) l

/-- `Context::from_yaml` (src/context.rs lines 222-233): parse, convert, then
`extend` a fresh context; errors are tagged `Error::Yaml`. -/
def TestContext.from_yaml (yaml : String) : Except Error TestContext :=
  match parseYamlDoc yaml.data with
  | .ok entries => .ok (TestContext.new.extend entries)
  | .error msg => .error (Error.Yaml msg)

/-- The integer tag a YAML round trip preserves, as for JSON: the parse goes
through `serde_json::Value`, so only negative `i64` values keep their tag. -/
def yamlCanonValue : DValue → Bool
  | .i64 z => decide (z < 0)
  | _ => true

/-! ### YAML round trip lemmas -/

theorem plainChar_ne {c x : Char} (h : yamlPlainChar c = true)
    (hx : yamlPlainChar x = false) : ¬ c = x := by
  intro hc
  rw [hc, hx] at h
  exact absurd h (by simp)

theorem plainKeyChar_of_plain {c : Char} (h : yamlPlainChar c = true) :
    yamlPlainKeyChar c = true := by
  rw [yamlPlainKeyChar]
  rw [show decide (c = ':') = false from
    decide_eq_false (plainChar_ne h (by decide))]
  rw [show decide (c = '\n') = false from
    decide_eq_false (plainChar_ne h (by decide))]
  rfl

theorem hasColonSpace_all_plain {cs : List Char}
    (h : cs.all yamlPlainChar = true) : hasColonSpace cs = false := by
  induction cs with
  | nil => rfl
  | cons c rest ih =>
    rw [List.all_cons, Bool.and_eq_true] at h
    rw [hasColonSpace.eq_def]
    simp only []
    rw [show decide (c = ':') = false from
      decide_eq_false (plainChar_ne h.1 (by decide))]
    simp only [Bool.false_and, Bool.false_or]
    exact ih h.2

theorem yamlSeqStart_all_plain {cs : List Char}
    (h : cs.all yamlPlainChar = true) : yamlSeqStart cs = false := by
  cases cs with
  | nil => rfl
  | cons c rest =>
    cases rest with
    | nil => rfl
    | cons c2 t =>
      rw [List.all_cons, List.all_cons] at h
      simp only [Bool.and_eq_true] at h
      rw [yamlSeqStart]
      rw [show decide (c2 = ' ') = false from
        decide_eq_false (plainChar_ne h.2.1 (by decide))]
      simp

theorem parseYamlKey_render (k : String) (l : List Char) :
    parseYamlKey (yamlRenderKey k ++ ':' :: l) = .ok (k, ':' :: l) := by
  rw [yamlRenderKey]
  by_cases hplain : yamlPlainOk k.data = true
  · rw [if_pos hplain]
    rw [yamlPlainOk] at hplain
    simp only [Bool.and_eq_true, Bool.not_eq_true', decide_eq_false_iff_not,
      Option.isNone_iff_eq_none] at hplain
    obtain ⟨⟨⟨⟨⟨⟨hne, hall⟩, hnt⟩, hnf⟩, hnn⟩, hnw⟩, hni⟩ := hplain
    cases hd : k.data with
    | nil => rw [hd] at hne; exact absurd hne (by simp)
    | cons c t =>
      have hc : yamlPlainChar c = true := by
        rw [hd, List.all_cons, Bool.and_eq_true] at hall
        exact hall.1
      have hcq : ¬ c = '"' := plainChar_ne hc (by decide)
      rw [List.cons_append, parseYamlKey.eq_def]
      simp only [if_neg hcq]
      rw [show c :: (t ++ ':' :: l) = (c :: t) ++ ':' :: l from rfl]
      rw [munchWhile_append yamlPlainKeyChar (c :: t)
        (by
          intro c2 h2
          refine plainKeyChar_of_plain ?_
          rw [hd, List.all_eq_true] at hall
          exact hall c2 h2) (by decide) l]
      simp only []
      rw [if_neg (by rw [← hd]; simp [hne]), if_neg (by
        rw [← hd]
        simp only [Bool.or_eq_true, decide_eq_true_eq, Option.isSome_iff_exists]
        push_neg
        refine ⟨⟨⟨⟨hnt, hnf⟩, hnn⟩, hnw⟩, ?_⟩
        intro z hz
        rw [hni] at hz
        exact absurd hz (by simp))]
      rw [← hd]
  · rw [if_neg hplain, jsonQuote]
    simp only [List.cons_append, List.append_assoc, List.singleton_append]
    rw [parseYamlKey.eq_def]
    simp only [reduceIte]
    rw [parseStr_jsonEscape]
    simp

theorem digit_ne {c x : Char} (h : c.isDigit = true) (hx : x.isDigit = false) :
    ¬ c = x := by
  intro hc
  rw [hc, hx] at h
  exact absurd h (by simp)

theorem parseYamlValue_render (v : DValue) (hv : yamlCanonValue v = true)
    (l : List Char) :
    parseYamlValue (yamlRenderValue v ++ '\n' :: l) = .ok (v, '\n' :: l) := by
  cases v with
  | str s =>
    rw [yamlRenderValue]
    by_cases hplain : yamlPlainOk s.data = true
    · rw [if_pos hplain]
      rw [yamlPlainOk] at hplain
      simp only [Bool.and_eq_true, Bool.not_eq_true', decide_eq_false_iff_not,
        Option.isNone_iff_eq_none] at hplain
      obtain ⟨⟨⟨⟨⟨⟨hne, hall⟩, hnt⟩, hnf⟩, hnn⟩, hnw⟩, hni⟩ := hplain
      cases hd : s.data with
      | nil => rw [hd] at hne; exact absurd hne (by simp)
      | cons c t =>
        have hallp : ∀ c2 ∈ c :: t, yamlPlainChar c2 = true := by
          intro c2 h2
          rw [List.all_eq_true] at hall
          exact hall c2 (by rw [hd]; exact h2)
        have hallb : (c :: t).all yamlPlainChar = true := by
          rw [List.all_eq_true]
          exact hallp
        have hc : yamlPlainChar c = true := hallp c (List.mem_cons_self _ _)
        have hcq : ¬ c = '"' := plainChar_ne hc (by decide)
        rw [List.cons_append, parseYamlValue.eq_def]
        simp only [if_neg hcq]
        rw [show c :: (t ++ '\n' :: l) = (c :: t) ++ '\n' :: l from rfl]
        rw [munchWhile_append _ (c :: t)
          (by
            intro c2 h2
            simp only [Bool.not_eq_true', decide_eq_false_iff_not]
            exact plainChar_ne (hallp c2 h2) (by decide)) (by simp) l]
        simp only []
        rw [if_neg (by rw [← hd]; simpa using hnt),
          if_neg (by rw [← hd]; simpa using hnf),
          if_neg (by
            rw [← hd]
            simp only [Bool.or_eq_true, decide_eq_true_eq]
            push_neg
            exact ⟨hnn, hnw⟩)]
        rw [show intLike? (c :: t) = none from by rw [← hd]; exact hni]
        simp only []
        rw [if_neg (plainChar_ne hc (by decide)),
          if_neg (plainChar_ne hc (by decide)),
          if_neg (by simp [@yamlSeqStart_all_plain (c :: t) hallb]),
          if_neg (by simp [@hasColonSpace_all_plain (c :: t) hallb])]
        rw [← hd]
    · rw [if_neg hplain, jsonQuote]
      simp only [List.cons_append, List.append_assoc, List.singleton_append]
      rw [parseYamlValue.eq_def]
      simp only [reduceIte]
      rw [parseStr_jsonEscape]
      simp
  | bool b => cases b <;> rfl
  | unit => rfl
  | u64 n =>
    rw [yamlRenderValue]
    cases hnc : natToChars n with
    | nil => exact absurd hnc (natToChars_ne_nil _)
    | cons d t =>
      have hdd : d.isDigit = true :=
        natToChars_all_digits _ d (by rw [hnc]; exact List.mem_cons_self _ _)
      have hdq : ¬ d = '"' := digit_ne hdd (by decide)
      have hdm : ¬ d = '-' := digit_ne hdd (by decide)
      rw [List.cons_append, parseYamlValue.eq_def]
      simp only [if_neg hdq]
      rw [show d :: (t ++ '\n' :: l) = (d :: t) ++ '\n' :: l from rfl]
      rw [munchWhile_append _ (d :: t)
        (by
          intro c2 h2
          simp only [Bool.not_eq_true', decide_eq_false_iff_not]
          refine digit_ne ?_ (by decide)
          rw [← hnc] at h2
          exact natToChars_all_digits _ c2 h2) (by simp) l]
      simp only []
      rw [if_neg (by
          simp only [decide_eq_true_eq]
          rw [← hnc]
          exact natToChars_ne_word _ 't' (by decide) _),
        if_neg (by
          simp only [decide_eq_true_eq]
          rw [← hnc]
          exact natToChars_ne_word _ 'f' (by decide) _),
        if_neg (by
          simp only [Bool.or_eq_true, decide_eq_true_eq]
          push_neg
          constructor
          · rw [← hnc]; exact natToChars_ne_word _ 'n' (by decide) _
          · rw [← hnc]; exact natToChars_ne_word _ '~' (by decide) _)]
      rw [intLike?.eq_def]
      simp only [if_neg hdm]
      rw [if_pos (by rw [← hnc]; exact natToChars_all _)]
      rw [← hnc, digitsToNat_natToChars]
      simp only []
      rw [if_neg (by omega : ¬ ((n : Int) < 0))]
      have hnn2 : ((n : Int)).toNat = n := by omega
      rw [hnn2]
  | i64 z =>
    have hz : z < 0 := by
      rw [yamlCanonValue] at hv
      exact of_decide_eq_true hv
    rw [yamlRenderValue, intToChars, if_pos hz, List.cons_append,
      parseYamlValue.eq_def]
    simp only []
    rw [if_neg (by decide : ¬ ('-' : Char) = '"')]
    rw [show '-' :: (natToChars z.natAbs ++ '\n' :: l)
      = ('-' :: natToChars z.natAbs) ++ '\n' :: l from rfl]
    rw [munchWhile_append _ ('-' :: natToChars z.natAbs)
      (by
        intro c2 hc2
        simp only [Bool.not_eq_true', decide_eq_false_iff_not]
        rcases List.mem_cons.mp hc2 with h2 | h2
        · rw [h2]; decide
        · exact digit_ne (natToChars_all_digits _ c2 h2) (by decide))
      (by simp) l]
    simp only []
    rw [if_neg (by simp), if_neg (by simp), if_neg (by simp)]
    rw [intLike?.eq_def]
    simp only [reduceIte]
    rw [if_pos (by simp [natToChars_isEmpty, natToChars_all])]
    rw [digitsToNat_natToChars]
    simp only []
    rw [if_pos (by omega : -((z.natAbs : Int)) < 0)]
    have hneg : -((z.natAbs : Int)) = z := by omega
    rw [hneg]

theorem yamlRenderEntries_length (es : BMap) :
    es.length ≤ (yamlRenderEntries es).length := by
  induction es with
  | nil => simp [yamlRenderEntries]
  | cons kv es2 ih =>
    obtain ⟨k, v⟩ := kv
    rw [yamlRenderEntries]
    simp only [List.length_append, List.length_cons]
    omega

theorem yamlRenderKey_head (k : String) :
    ∃ c t, yamlRenderKey k = c :: t ∧ ¬ c = '{' := by
  rw [yamlRenderKey]
  by_cases hplain : yamlPlainOk k.data = true
  · rw [if_pos hplain]
    rw [yamlPlainOk] at hplain
    simp only [Bool.and_eq_true] at hplain
    have hne := hplain.1.1.1.1.1.1
    have hall := hplain.1.1.1.1.1.2
    cases hd : k.data with
    | nil => rw [hd] at hne; exact absurd hne (by simp)
    | cons c t =>
      have hc : yamlPlainChar c = true := by
        rw [List.all_eq_true] at hall
        exact hall c (by rw [hd]; exact List.mem_cons_self _ _)
      exact ⟨c, t, rfl, plainChar_ne hc (by decide)⟩
  · rw [if_neg hplain]
    exact ⟨'"', _, rfl, by decide⟩

theorem parseYamlLines_render (es : BMap)
    (hcanon : ∀ kv ∈ es, yamlCanonValue kv.2 = true) :
    ∀ fuel, es.length < fuel →
    parseYamlLines fuel (yamlRenderEntries es) = .ok es := by
  induction es with
  | nil =>
    intro fuel hf
    obtain ⟨f, rfl⟩ : ∃ f, fuel = f + 1 := ⟨fuel - 1, by omega⟩
    rfl
  | cons kv es2 ih =>
    intro fuel hf
    obtain ⟨k, v⟩ := kv
    obtain ⟨f, rfl⟩ : ∃ f, fuel = f + 1 := ⟨fuel - 1, by omega⟩
    have hv : yamlCanonValue v = true := hcanon (k, v) (List.mem_cons_self _ _)
    obtain ⟨c0, t0, hk0, _⟩ := yamlRenderKey_head k
    rw [yamlRenderEntries, hk0, List.cons_append, parseYamlLines.eq_def]
    simp only []
    rw [show c0 :: (t0 ++ ':' :: ' ' :: (yamlRenderValue v
        ++ '\n' :: yamlRenderEntries es2))
      = (c0 :: t0) ++ ':' :: (' ' :: (yamlRenderValue v
        ++ '\n' :: yamlRenderEntries es2)) from rfl]
    rw [← hk0, parseYamlKey_render k _]
    simp only []
    rw [parseYamlValue_render v hv (yamlRenderEntries es2)]
    simp only []
    rw [ih (fun kv hkv => hcanon kv (List.mem_cons_of_mem _ hkv)) f
      (by simp only [List.length_cons] at hf; omega)]

theorem from_yaml_to_yaml (c : TestContext) (hs : SortedKeys c.data)
    (hcanon : ∀ kv ∈ c.data, yamlCanonValue kv.2 = true) :
    ∃ s, c.to_yaml = .ok s
      ∧ Except.map TestContext.inner (TestContext.from_yaml s) = .ok c.inner := by
  cases hd : c.data with
  | nil =>
    refine ⟨String.mk ['{', '}', '\n'], ?_, ?_⟩
    · rw [TestContext.to_yaml.eq_def, show c.inner = c.data from rfl, hd]
    · rw [TestContext.from_yaml,
        show (String.mk ['{', '}', '\n']).data = ['{', '}', '\n'] from rfl,
        parseYamlDoc]
      rw [if_pos (by simp)]
      simp only [Except.map]
      rw [show (TestContext.new.extend []).inner = extendMap [] [] from rfl,
        extendMap_nil, show c.inner = c.data from rfl, hd]
  | cons kv es =>
    have hcanon2 : ∀ kv2 ∈ c.data, yamlCanonValue kv2.2 = true := hcanon
    rw [hd] at hcanon2
    obtain ⟨c0, t0, hk0, hc0⟩ := yamlRenderKey_head kv.1
    have hhead : yamlRenderEntries (kv :: es) = c0
        :: (t0 ++ ':' :: ' ' :: (yamlRenderValue kv.2
          ++ '\n' :: yamlRenderEntries es)) := by
      rw [show yamlRenderEntries (kv :: es) = yamlRenderKey kv.1
          ++ ':' :: ' ' :: (yamlRenderValue kv.2
            ++ '\n' :: yamlRenderEntries es) from by
        obtain ⟨k2, v2⟩ := kv
        rfl]
      rw [hk0, List.cons_append]
    refine ⟨String.mk (yamlRenderEntries (kv :: es)), ?_, ?_⟩
    · rw [TestContext.to_yaml.eq_def, show c.inner = c.data from rfl, hd]
    · rw [TestContext.from_yaml,
        show (String.mk (yamlRenderEntries (kv :: es))).data
          = yamlRenderEntries (kv :: es) from rfl,
        parseYamlDoc]
      rw [if_neg (by
        simp only [Bool.or_eq_true, decide_eq_true_eq]
        push_neg
        constructor
        · intro heq
          rw [hhead] at heq
          exact hc0 (List.cons.injEq .. ▸ heq).1
        · intro heq
          rw [hhead] at heq
          exact hc0 (List.cons.injEq .. ▸ heq).1)]
      have hlen := yamlRenderEntries_length (kv :: es)
      rw [parseYamlLines_render (kv :: es) hcanon2 _
        (by simp only [List.length_cons] at hlen ⊢; omega)]
      simp only [Except.map]
      rw [show (TestContext.new.extend (kv :: es)).inner
        = extendMap [] (kv :: es) from rfl]
      rw [extendMap_new_sorted (kv :: es) (by rw [← hd]; exact hs),
        show c.inner = c.data from rfl, hd]

/-! ### The round trip claims -/

/-- C1 counterexample: the round trip is not the identity on every context of
key-to-scalar insertions.  The context holding `I64(2)` under key `k`
serializes to compact JSON and parses back with the value tagged `U64(2)`,
so the inner maps differ. -/
theorem json_roundtrip_changes_integer_tag :
    ∃ s, (TestContext.new.insert "k" (DValue.i64 2)).to_json false = .ok s
      ∧ TestContext.from_json s
          = .ok (TestContext.mk [("k", DValue.u64 2)])
      ∧ (TestContext.mk [("k", DValue.u64 2)]).inner
          ≠ (TestContext.new.insert "k" (DValue.i64 2)).inner :=
  ⟨_, rfl, by decide, by decide⟩

/-- C1 (amended): the round trip `from_X(to_X(c)).inner() == c.inner()` holds
for every context whose integer values carry the tag the format parser
reproduces: for JSON and YAML, `u64` for nonnegative integers and `i64` only
for negative ones; for TOML, `i64` (and no `Unit` value, which TOML cannot
serialize).  Strings, booleans (and for JSON/YAML `Unit`) are unrestricted. -/
theorem roundtrip_identity_canonical (c : TestContext) (hs : SortedKeys c.data)
    (b : Bool) :
    ((∀ kv ∈ c.data, jsonCanonValue kv.2 = true) →
      ∃ s, c.to_json b = .ok s
        ∧ Except.map TestContext.inner (TestContext.from_json s) = .ok c.inner)
    ∧ ((∀ kv ∈ c.data, tomlCanonValue kv.2 = true) →
      ∃ s, c.to_toml b = .ok s
        ∧ Except.map TestContext.inner (TestContext.from_toml s) = .ok c.inner)
    ∧ ((∀ kv ∈ c.data, yamlCanonValue kv.2 = true) →
      ∃ s, c.to_yaml = .ok s
        ∧ Except.map TestContext.inner (TestContext.from_yaml s) = .ok c.inner) :=
  ⟨fun hc => from_json_to_json c hs hc b,
   fun hc => from_toml_to_toml c hs hc b,
   fun hc => from_yaml_to_yaml c hs hc⟩

/-- Witness for the amended C1 at a concrete context with a string and a
negative integer, canonical for all three formats, on both pretty flags. -/
theorem roundtrip_identity_canonical_witness :
    (∃ s, ((TestContext.new.insert "name" (DValue.str "Alice")).insert "num"
        (DValue.i64 (-3))).to_json true = .ok s
      ∧ Except.map TestContext.inner (TestContext.from_json s)
          = .ok (((TestContext.new.insert "name" (DValue.str "Alice")).insert
            "num" (DValue.i64 (-3))).inner))
    ∧ (∃ s, ((TestContext.new.insert "name" (DValue.str "Alice")).insert "num"
        (DValue.i64 (-3))).to_toml false = .ok s
      ∧ Except.map TestContext.inner (TestContext.from_toml s)
          = .ok (((TestContext.new.insert "name" (DValue.str "Alice")).insert
            "num" (DValue.i64 (-3))).inner))
    ∧ (∃ s, ((TestContext.new.insert "name" (DValue.str "Alice")).insert "num"
        (DValue.i64 (-3))).to_yaml = .ok s
      ∧ Except.map TestContext.inner (TestContext.from_yaml s)
          = .ok (((TestContext.new.insert "name" (DValue.str "Alice")).insert
            "num" (DValue.i64 (-3))).inner)) :=
  ⟨(roundtrip_identity_canonical _ (by decide) true).1 (by decide),
   (roundtrip_identity_canonical _ (by decide) false).2.1 (by decide),
   (roundtrip_identity_canonical _ (by decide) false).2.2 (by decide)⟩

/-! ### Line break structure of the serialized forms -/

theorem newline_not_mem_escapeChar (ch : Char) : '\n' ∉ jsonEscapeChar ch := by
  rw [jsonEscapeChar]
  by_cases h1 : ch = '"'
  · rw [if_pos h1]; decide
  rw [if_neg h1]
  by_cases h2 : ch = '\\'
  · rw [if_pos h2]; decide
  rw [if_neg h2]
  by_cases h3 : ch = '\n'
  · rw [if_pos h3]; decide
  rw [if_neg h3]
  by_cases h4 : ch = '\t'
  · rw [if_pos h4]; decide
  rw [if_neg h4]
  by_cases h5 : ch = '\r'
  · rw [if_pos h5]; decide
  rw [if_neg h5]
  by_cases h6 : ch = '\x08'
  · rw [if_pos h6]; decide
  rw [if_neg h6]
  by_cases h7 : ch = '\x0c'
  · rw [if_pos h7]; decide
  rw [if_neg h7]
  by_cases h8 : ch.toNat < 32
  · rw [if_pos h8]
    intro hmem
    have hhex : ∀ m, m < 16 → ¬ hexDigitChar m = '\n' := by decide
    simp only [List.mem_cons, List.not_mem_nil, or_false] at hmem
    rcases hmem with h | h | h | h | h | h
    · exact absurd h (by decide)
    · exact absurd h (by decide)
    · exact absurd h (by decide)
    · exact absurd h (by decide)
    · exact hhex _ (by omega) h.symm
    · exact hhex _ (by omega) h.symm
  · rw [if_neg h8]
    intro hmem
    simp only [List.mem_cons, List.not_mem_nil, or_false] at hmem
    exact h3 hmem.symm

theorem newline_not_mem_escapeChars (cs : List Char) :
    '\n' ∉ jsonEscapeChars cs := by
  induction cs with
  | nil => simp [jsonEscapeChars]
  | cons c rest ih =>
    rw [jsonEscapeChars]
    intro hmem
    rcases List.mem_append.mp hmem with h | h
    · exact newline_not_mem_escapeChar c h
    · exact ih h

theorem newline_not_mem_jsonQuote (s : String) : '\n' ∉ jsonQuote s := by
  rw [jsonQuote]
  intro hmem
  rcases List.mem_cons.mp hmem with h | h
  · exact absurd h (by decide)
  · rcases List.mem_append.mp h with h2 | h2
    · exact newline_not_mem_escapeChars _ h2
    · simp at h2

theorem newline_not_mem_natToChars (m : Nat) : '\n' ∉ natToChars m := by
  intro hmem
  have := natToChars_all_digits m '\n' hmem
  exact absurd this (by decide)

theorem newline_not_mem_renderJsonValue (v : DValue) :
    '\n' ∉ renderJsonValue v := by
  cases v with
  | str s => exact newline_not_mem_jsonQuote s
  | bool b => cases b <;> decide
  | unit => decide
  | u64 n => exact newline_not_mem_natToChars n
  | i64 z =>
    rw [renderJsonValue, intToChars]
    by_cases hz : z < 0
    · rw [if_pos hz]
      intro hmem
      rcases List.mem_cons.mp hmem with h | h
      · exact absurd h (by decide)
      · exact newline_not_mem_natToChars _ h
    · rw [if_neg hz]
      exact newline_not_mem_natToChars _

theorem newline_not_mem_renderJsonMembersCompact (m : BMap) :
    '\n' ∉ renderJsonMembersWith [] [] m := by
  induction m with
  | nil => simp [renderJsonMembersWith]
  | cons kv es ih =>
    obtain ⟨k, v⟩ := kv
    cases es with
    | nil =>
      rw [renderJsonMembersWith]
      intro hmem
      rcases List.mem_append.mp hmem with h | h
      · exact newline_not_mem_jsonQuote _ h
      · rcases List.mem_cons.mp h with h2 | h2
        · exact absurd h2 (by decide)
        · rw [List.nil_append] at h2
          exact newline_not_mem_renderJsonValue _ h2
    | cons kv2 es2 =>
      rw [renderJsonMembersWith]
      intro hmem
      rcases List.mem_append.mp hmem with h | h
      · rcases List.mem_append.mp h with h2 | h2
        · exact newline_not_mem_jsonQuote _ h2
        · rcases List.mem_cons.mp h2 with h3 | h3
          · exact absurd h3 (by decide)
          · rw [List.nil_append] at h3
            exact newline_not_mem_renderJsonValue _ h3
      · rcases List.mem_cons.mp h with h2 | h2
        · exact absurd h2 (by decide)
        · rw [List.nil_append] at h2
          exact ih h2
      · simp

theorem newline_not_mem_renderJsonCompact (m : BMap) :
    '\n' ∉ renderJsonCompact m := by
  rw [renderJsonCompact]
  intro hmem
  rcases List.mem_cons.mp hmem with h | h
  · exact absurd h (by decide)
  · rcases List.mem_append.mp h with h2 | h2
    · exact newline_not_mem_renderJsonMembersCompact m h2
    · simp at h2

theorem newline_mem_tomlRenderEntries (k : String) (v : DValue) (es : BMap)
    (l : List Char) (h : tomlRenderEntries ((k, v) :: es) = .ok l) :
    '\n' ∈ l := by
  rw [tomlRenderEntries] at h
  cases hv : tomlRenderValue v with
  | error msg => rw [hv] at h; simp at h
  | ok vc =>
    cases hr : tomlRenderEntries es with
    | error msg => rw [hv, hr] at h; simp at h
    | ok rc =>
      rw [hv, hr] at h
      simp only [Except.ok.injEq] at h
      subst h
      refine List.mem_append.mpr (Or.inr ?_)
      refine List.mem_cons_of_mem _ (List.mem_cons_of_mem _
        (List.mem_cons_of_mem _ (List.mem_append.mpr (Or.inr ?_))))
      exact List.mem_cons_self _ _

/-- C4 counterexample: compact TOML output of a non-empty context does
contain a line break (every `key = value` entry ends in a newline), and a
context holding a `Unit` value makes `to_toml` fail outright rather than
return a string. -/
theorem toml_compact_newline_counterexample :
    ∃ s, (TestContext.new.insert "a" (DValue.i64 1)).to_toml false = .ok s
      ∧ '\n' ∈ s.data
      ∧ ∃ m, (TestContext.new.insert "u" DValue.unit).to_toml true
          = .error (Error.Toml m) :=
  ⟨_, rfl, by decide, _, rfl⟩

/-- C4 (amended): for every non-empty context, pretty JSON output contains a
line break and compact JSON output contains none; TOML output, whenever
serialization succeeds, contains a line break under both flags (the TOML
document form is line based). -/
theorem pretty_compact_line_breaks (c : TestContext) (hne : c.data ≠ []) :
    (∃ s, c.to_json true = .ok s ∧ '\n' ∈ s.data)
    ∧ (∃ s, c.to_json false = .ok s ∧ '\n' ∉ s.data)
    ∧ (∀ b s, c.to_toml b = .ok s → '\n' ∈ s.data) := by
  refine ⟨?_, ?_, ?_⟩
  · refine ⟨String.mk (renderJsonPretty c.inner), rfl, ?_⟩
    show '\n' ∈ renderJsonPretty c.data
    cases hd : c.data with
    | nil => exact absurd hd hne
    | cons kv es => simp [renderJsonPretty]
  · exact ⟨String.mk (renderJsonCompact c.inner), rfl,
      newline_not_mem_renderJsonCompact c.data⟩
  · intro b s hok
    rw [TestContext.to_toml.eq_def] at hok
    cases hr : tomlRenderEntries c.inner with
    | error msg => rw [hr] at hok; cases b <;> simp at hok
    | ok l =>
      rw [hr] at hok
      have hs : s = String.mk l := by
        cases b <;> (simp only [] at hok; exact (Except.ok.inj hok).symm)
      subst hs
      cases hd : c.data with
      | nil => exact absurd hd hne
      | cons kv es =>
        obtain ⟨k, v⟩ := kv
        rw [show c.inner = c.data from rfl, hd] at hr
        exact newline_mem_tomlRenderEntries k v es l hr

/-- Witness for the amended C4 at the context holding one integer. -/
theorem pretty_compact_line_breaks_witness :
    (∃ s, (TestContext.new.insert "a" (DValue.i64 1)).to_json true = .ok s
      ∧ '\n' ∈ s.data)
    ∧ (∃ s, (TestContext.new.insert "a" (DValue.i64 1)).to_json false = .ok s
      ∧ '\n' ∉ s.data)
    ∧ (∃ s, (TestContext.new.insert "a" (DValue.i64 1)).to_toml false = .ok s
      ∧ '\n' ∈ s.data) :=
  ⟨(pretty_compact_line_breaks (TestContext.new.insert "a" (DValue.i64 1))
      (by decide)).1,
   (pretty_compact_line_breaks (TestContext.new.insert "a" (DValue.i64 1))
      (by decide)).2.1,
   ⟨_, rfl, (pretty_compact_line_breaks (TestContext.new.insert "a"
      (DValue.i64 1)) (by decide)).2.2 false _ rfl⟩⟩

/-- C10: each serializer is a function of `inner()` alone, so two contexts
with equal inner maps serialize identically in every format and mode. -/
theorem serializers_deterministic (c1 c2 : TestContext) (b : Bool)
    (h : c1.inner = c2.inner) :
    c1.to_json b = c2.to_json b ∧ c1.to_toml b = c2.to_toml b
      ∧ c1.to_yaml = c2.to_yaml := by
  have hc : c1 = c2 := by
    cases c1
    cases c2
    exact congrArg TestContext.mk h
  subst hc
  exact ⟨rfl, rfl, rfl⟩

/-- Witness for C10: two contexts built by different operation sequences but
with the same inner map serialize identically. -/
theorem serializers_deterministic_witness :
    ((TestContext.new.insert "a" (DValue.u64 1)).insert "a"
        (DValue.u64 2)).to_json true
      = (TestContext.new.insert "a" (DValue.u64 2)).to_json true
    ∧ ((TestContext.new.insert "a" (DValue.u64 1)).insert "a"
        (DValue.u64 2)).to_toml true
      = (TestContext.new.insert "a" (DValue.u64 2)).to_toml true
    ∧ ((TestContext.new.insert "a" (DValue.u64 1)).insert "a"
        (DValue.u64 2)).to_yaml
      = (TestContext.new.insert "a" (DValue.u64 2)).to_yaml :=
  serializers_deterministic _ _ true (by decide)

/-! ### Error handling claims -/

/-- C5: the three malformed inputs of the test suite each produce the error
variant tagged with their format, carrying the parser message as the string
payload, and no context. -/
theorem malformed_inputs_format_tagged :
    (∃ m, TestContext.from_json "invalid json" = .error (Error.Json m)
      ∧ parseJsonObject (String.data "invalid json") = .error m)
    ∧ (∃ m, TestContext.from_toml "invalid = toml" = .error (Error.Toml m)
      ∧ parseTomlDoc (String.data "invalid = toml") = .error m)
    ∧ (∃ m, TestContext.from_yaml "invalid: - yaml: ]" = .error (Error.Yaml m)
      ∧ parseYamlDoc (String.data "invalid: - yaml: ]") = .error m) :=
  ⟨⟨_, rfl, rfl⟩, ⟨_, rfl, rfl⟩, ⟨_, rfl, rfl⟩⟩

/-- C6: whenever the underlying parse fails, `from_X` returns exactly the
format-tagged error and no context value at all. -/
theorem from_failure_error_only (s : String) :
    (∀ m, parseJsonObject s.data = .error m →
      TestContext.from_json s = .error (Error.Json m)
        ∧ ∀ c2, ¬ TestContext.from_json s = .ok c2)
    ∧ (∀ m, parseTomlDoc s.data = .error m →
      TestContext.from_toml s = .error (Error.Toml m)
        ∧ ∀ c2, ¬ TestContext.from_toml s = .ok c2)
    ∧ (∀ m, parseYamlDoc s.data = .error m →
      TestContext.from_yaml s = .error (Error.Yaml m)
        ∧ ∀ c2, ¬ TestContext.from_yaml s = .ok c2) := by
  refine ⟨?_, ?_, ?_⟩
  · intro m hm
    rw [TestContext.from_json, hm]
    exact ⟨rfl, fun c2 hc => Except.noConfusion hc⟩
  · intro m hm
    rw [TestContext.from_toml, hm]
    exact ⟨rfl, fun c2 hc => Except.noConfusion hc⟩
  · intro m hm
    rw [TestContext.from_yaml, hm]
    exact ⟨rfl, fun c2 hc => Except.noConfusion hc⟩

/-- Witness for C6 at the malformed JSON input of the test suite. -/
theorem from_failure_error_only_witness :
    TestContext.from_json "invalid json"
        = .error (Error.Json ("invalid type: expected a map"))
      ∧ ¬ TestContext.from_json "invalid json" = .ok TestContext.new :=
  ⟨((from_failure_error_only "invalid json").1
      ("invalid type: expected a map") (by decide)).1,
   ((from_failure_error_only "invalid json").1
      ("invalid type: expected a map") (by decide)).2 TestContext.new⟩

/-- C7: every operation of the adapter surface is total in the model and
yields either a value or an error tagged with the failing format; no failure
escapes the result type. -/
theorem all_failures_typed (s : String) (c : TestContext) (b : Bool) :
    ((∃ c2, TestContext.from_json s = .ok c2)
      ∨ (∃ m, TestContext.from_json s = .error (Error.Json m)))
    ∧ ((∃ c2, TestContext.from_toml s = .ok c2)
      ∨ (∃ m, TestContext.from_toml s = .error (Error.Toml m)))
    ∧ ((∃ c2, TestContext.from_yaml s = .ok c2)
      ∨ (∃ m, TestContext.from_yaml s = .error (Error.Yaml m)))
    ∧ (∃ out, c.to_json b = .ok out)
    ∧ ((∃ out, c.to_toml b = .ok out)
      ∨ (∃ m, c.to_toml b = .error (Error.Toml m)))
    ∧ (∃ out, c.to_yaml = .ok out) := by
  refine ⟨?_, ?_, ?_, ?_, ?_, ?_⟩
  · cases hp : parseJsonObject s.data with
    | ok es => exact Or.inl ⟨_, by rw [TestContext.from_json, hp]⟩
    | error m => exact Or.inr ⟨m, by rw [TestContext.from_json, hp]⟩
  · cases hp : parseTomlDoc s.data with
    | ok es => exact Or.inl ⟨_, by rw [TestContext.from_toml, hp]⟩
    | error m => exact Or.inr ⟨m, by rw [TestContext.from_toml, hp]⟩
  · cases hp : parseYamlDoc s.data with
    | ok es => exact Or.inl ⟨_, by rw [TestContext.from_yaml, hp]⟩
    | error m => exact Or.inr ⟨m, by rw [TestContext.from_yaml, hp]⟩
  · cases b <;> exact ⟨_, rfl⟩
  · cases b with
    | true =>
      cases hr : tomlRenderEntries c.inner with
      | ok l => exact Or.inl ⟨_, by rw [TestContext.to_toml.eq_def, hr]⟩
      | error m => exact Or.inr ⟨m, by rw [TestContext.to_toml.eq_def, hr]⟩
    | false =>
      cases hr : tomlRenderEntries c.inner with
      | ok l => exact Or.inl ⟨_, by rw [TestContext.to_toml.eq_def, hr]⟩
      | error m => exact Or.inr ⟨m, by rw [TestContext.to_toml.eq_def, hr]⟩
  · cases hd : c.inner with
    | nil => exact ⟨_, by rw [TestContext.to_yaml.eq_def, hd]⟩
    | cons kv es => exact ⟨_, by rw [TestContext.to_yaml.eq_def, hd]⟩

/-- C9: a well-formed input whose top level is not a string-keyed map yields
a format-tagged error: any JSON document not starting with an opening brace
is rejected by `from_json`, and the scalar `42` and the sequence `[1, 2]`
are rejected by `from_yaml`. -/
theorem top_level_non_map_rejected (s : String) :
    ((skipWs s.data).head? ≠ some '{' →
      ∃ m, TestContext.from_json s = .error (Error.Json m))
    ∧ (∃ m, TestContext.from_yaml "42" = .error (Error.Yaml m))
    ∧ (∃ m, TestContext.from_yaml "[1, 2]" = .error (Error.Yaml m)) := by
  refine ⟨?_, ⟨_, rfl⟩, ⟨_, rfl⟩⟩
  intro hne
  have hp : ∃ m0, parseJsonObject s.data = .error m0 := by
    rw [parseJsonObject.eq_def]
    cases hw : skipWs s.data with
    | nil => exact ⟨_, rfl⟩
    | cons c0 rest =>
      have hc0 : ¬ c0 = '{' := by
        intro hc
        rw [hw, hc] at hne
        simp at hne
      simp only []
      rw [if_neg hc0]
      exact ⟨_, rfl⟩
  obtain ⟨m0, hm0⟩ := hp
  exact ⟨m0, by rw [TestContext.from_json, hm0]⟩

/-- Witness for C9: the JSON array and scalar documents of the claim are
both rejected. -/
theorem top_level_non_map_rejected_witness :
    (∃ m, TestContext.from_json "[1,2]" = .error (Error.Json m))
    ∧ (∃ m, TestContext.from_json "42" = .error (Error.Json m)) :=
  ⟨(top_level_non_map_rejected "[1,2]").1 (by decide),
   (top_level_non_map_rejected "42").1 (by decide)⟩
